import Mathlib

/-!
Shallow embedding of `tools/eliminator.js` (the Emscripten redundant-variable
eliminator) and proofs about its passes.

The JavaScript operates on uglify-js ASTs, which are plain nested arrays whose
first element is usually a string tag.  We model a JS value occurring in such
a tree by the inductive type `Item` below.  JS objects used as string-keyed
dictionaries (`isLive`, `useCount`, `affects`, ...) are modelled by
association lists that mirror V8 insertion-order semantics: updating an
existing key keeps its position, adding a new key appends, and `for (k in o)`
enumerates keys in that order (a snapshot is taken when the loop starts).

Numbers are modelled by `Int`: the generated-code dialect only puts integer
literals in the positions the analysed passes touch, and float addition on
such integers is exact.
-/

set_option maxHeartbeats 1000000
set_option linter.unnecessarySeqFocus false

namespace Eliminator

/-- A JavaScript value inside an uglify AST: strings, numbers, booleans,
null/undefined holes, and nested arrays (the AST nodes themselves). -/
inductive Item where
  | str : String → Item
  | num : Int → Item
  | bool : Bool → Item
  | null : Item
  | arr : List Item → Item
  deriving Repr, Inhabited

/-- JS element access `a[i]` for array items, `none` when out of range or not
an array (reads as `undefined` in JS). -/
def Item.idx : Item → Nat → Option Item
  | .arr l, i => l.get? i
  | _, _ => none

/-- JS truthiness of an optional value; a missing value (`undefined`) is falsy,
arrays are always truthy (even empty ones). -/
def jsTruthy : Option Item → Bool
  | none => false
  | some (.str s) => !(s = "")
  | some (.num n) => !(n = 0)
  | some (.bool b) => b
  | some .null => false
  | some (.arr _) => true

mutual
/-- JS `ToString` on an element appearing inside an array being joined:
`null`/`undefined` print as the empty string there. -/
def joinElem : Item → String
  | .str s => s
  | .num n => toString n
  | .bool b => if b then "true" else "false"
  | .null => ""
  | .arr l => joinList l

/-- Array join with comma separators, as in `Array.prototype.toString`. -/
def joinList : List Item → String
  | [] => ""
  | [it] => joinElem it
  | it :: rest => joinElem it ++ "," ++ joinList rest
end

/-- JS `ToString` as used when a value is coerced to a property key:
`null` prints as "null", arrays join their elements with commas. -/
def jsKey : Item → String
  | .str s => s
  | .num n => toString n
  | .bool b => if b then "true" else "false"
  | .null => "null"
  | .arr l => joinList l

/-- Property-key coercion of a possibly missing value (`undefined` → "undefined"). -/
def jsKeyOpt : Option Item → String
  | none => "undefined"
  | some it => jsKey it

/-- String-keyed JS object used as a dictionary, in insertion order. -/
abbrev Dict (α : Type) := List (String × α)

/-- Lookup, `o[k]` (as an `Option`; `none` models `undefined`). -/
def dget {α : Type} : Dict α → String → Option α
  | [], _ => none
  | p :: rest, k => if p.1 = k then some p.2 else dget rest k

/-- Membership, `o.hasOwnProperty(k)`. -/
def dhas {α : Type} : Dict α → String → Bool
  | [], _ => false
  | p :: rest, k => if p.1 = k then true else dhas rest k

/-- Assignment `o[k] = v`: existing keys keep their position, new keys append. -/
def dset {α : Type} (d : Dict α) (k : String) (v : α) : Dict α :=
  if dhas d k then d.map (fun p => if p.1 = k then (k, v) else p) else d ++ [(k, v)]

/-- Key list in enumeration order (`for (k in o)`). -/
def dkeys {α : Type} (d : Dict α) : List String := d.map (·.1)

/-- Truthiness of `o[k]` for a boolean-valued dictionary. -/
def dtruthy (d : Dict Bool) (k : String) : Bool := (dget d k).getD false

/-- What a callback returns to `traverse`: `undefined` (keep going), the value
`false`, or a replacement node. -/
inductive CbRes where
  | undef : CbRes
  | fls : CbRes
  | repl : Item → CbRes

/-- What `traverse` itself returns: `undefined`, `false`, or a replacement for
the root. -/
inductive TravRes where
  | undef : TravRes
  | fls : TravRes
  | repl : Item → TravRes
  deriving Repr

/-- The tag of a node: `node[0]` when it is a string. -/
def headType : List Item → Option String
  | .str s :: _ => some s
  | _ => none

/-- The guard `subnode && typeof subnode == 'object' && subnode.length` deciding
whether `traverse` recurses into a child slot. -/
def isRecursable : Item → Bool
  | .arr [] => false
  | .arr (_ :: _) => true
  | _ => false

/-- The `for-in` exception: a `var` child of a `for-in` node is skipped. -/
def skipForIn (ty : Option String) (child : Item) : Bool :=
  ty == some "for-in" && (match child with
    | .arr (.str "var" :: _) => true
    | _ => false)

mutual
/-- Functional model of `traverse(node, callback)` from `eliminator.js`.  The
callback threads a state `σ` (the JS callbacks close over mutable outer
variables).  Returns the updated state, the node with all in-place child
mutations applied, and the JS return value.  Note the faithful quirk: a
callback result of `false` is only acted on when it comes back from a child
recursion (`subresult === false`); at the node itself `if (result)` treats
`false` like `undefined` and traversal of the children proceeds. -/
def traverse {σ : Type} (cb : σ → List Item → String → σ × CbRes) (s : σ) :
    Item → σ × Item × TravRes
  | .arr l =>
    match headType l with
    | some ty =>
      match cb s l ty with
      | (s1, .repl r) => (s1, .arr l, .repl r)
      | (s1, _) =>
        let (s2, l2, stopped) := travList cb (some ty) s1 l
        (s2, .arr l2, if stopped then .fls else .undef)
    | none =>
      let (s2, l2, stopped) := travList cb none s l
      (s2, .arr l2, if stopped then .fls else .undef)
  | it => (s, it, .undef)

/-- The child loop of `traverse`; the `Bool` result reports whether a child
recursion returned `false` (which aborts the loop). -/
def travList {σ : Type} (cb : σ → List Item → String → σ × CbRes)
    (ty : Option String) (s : σ) : List Item → σ × List Item × Bool
  | [] => (s, [], false)
  | child :: rest =>
    if isRecursable child && !skipForIn ty child then
      match traverse cb s child with
      | (s1, child1, .fls) => (s1, child1 :: rest, true)
      | (s1, child1, .repl r) =>
        let _ := child1
        let (s2, rest2, stopped) := travList cb ty s1 rest
        (s2, r :: rest2, stopped)
      | (s1, child1, .undef) =>
        let (s2, rest2, stopped) := travList cb ty s1 rest
        (s2, child1 :: rest2, stopped)
    else
      let (s2, rest2, stopped) := travList cb ty s rest
      (s2, child :: rest2, stopped)
end

/-- Loose JS equality of an optional item against a string literal
(used for `node[1] == '++'` style tests; non-strings never equal those). -/
def jsEqStr (o : Option Item) (s : String) : Bool :=
  match o with
  | some (.str t) => t == s
  | _ => false

/-- The identifier statistics tables of the `Eliminator` object. -/
structure Stats where
  isLocal : Dict Bool
  isSingleDef : Dict Bool
  useCount : Dict Nat
  usesOnlySimpleNodes : Dict Bool
  dependsOnAGlobal : Dict Bool
  depsMutatedInLiveRange : Dict Bool
  initialValue : Dict Item
  affects : Dict (Dict Bool)
  deriving Repr

/-- Fresh statistics tables, as built in the `Eliminator` constructor. -/
def initialStats : Stats := ⟨[], [], [], [], [], [], [], []⟩

/-- Node types which can be evaluated without side effects. -/
def NODES_WITHOUT_SIDE_EFFECTS : List String :=
  ["name", "num", "string", "binary", "sub", "unary-prefix"]

/-- Nodes which may break control flow. -/
def CONTROL_FLOW_NODES : List String :=
  ["new", "throw", "call", "label", "debugger"]

/-- Block types handled specially by `analyzeBlock`. -/
def ANALYZE_BLOCK_TYPES : List String :=
  ["switch", "if", "try", "do", "while", "for", "for-in"]

/-- Maximum number of uses to consider a variable not worth eliminating. -/
def MAX_USES : Nat := 1

/-- Processing of one `[name, value]` entry of a `var` node in the basic
variable scan (`calculateBasicVarStats`, lines 173-183). -/
def varStatEntry (st : Stats) (entry : Item) : Stats :=
  let varName := jsKeyOpt (entry.idx 0)
  let varValueOpt := entry.idx 1
  let varValue :=
    if jsTruthy varValueOpt then varValueOpt.getD .null
    else .arr [.str "name", .str "undefined"]
  { st with
    isLocal := dset st.isLocal varName true
    isSingleDef := dset st.isSingleDef varName (!dhas st.isSingleDef varName)
    initialValue := dset st.initialValue varName varValue
    useCount := dset st.useCount varName 0 }

/-- The callback of `calculateBasicVarStats`. -/
def basicCb (st : Stats) (node : List Item) (ty : String) : Stats × CbRes :=
  if ty == "var" then
    let entries := match node.get? 1 with | some (.arr l) => l | _ => []
    (entries.foldl varStatEntry st, .undef)
  else if ty == "name" then
    let varName := jsKeyOpt (node.get? 1)
    if dhas st.useCount varName then
      ({ st with useCount := dset st.useCount varName ((dget st.useCount varName).getD 0 + 1) },
       .undef)
    else
      ({ st with isSingleDef := dset st.isSingleDef varName false }, .undef)
  else if ty == "assign" then
    let varName := jsKeyOpt ((node.get? 2).bind (fun it => it.idx 1))
    if dtruthy st.isSingleDef varName then
      ({ st with isSingleDef := dset st.isSingleDef varName false }, .undef)
    else (st, .undef)
  else (st, .undef)

/-- The basic variable scan pass (`calculateBasicVarStats`). -/
def calculateBasicVarStats (st : Stats) (body : List Item) : Stats :=
  (traverse basicCb st (.arr body)).1

/-- The callback run over the initial value of the single-def `varName` in
`analyzeInitialValues`. -/
def initValCb (varName : String) (st : Stats) (node : List Item) (ty : String) :
    Stats × CbRes :=
  if !(NODES_WITHOUT_SIDE_EFFECTS.contains ty) then
    ({ st with usesOnlySimpleNodes := dset st.usesOnlySimpleNodes varName false }, .undef)
  else if ty == "name" then
    let reference := jsKeyOpt (node.get? 1)
    if reference != "undefined" then
      let st1 :=
        if dhas st.affects reference then st
        else { st with affects := dset st.affects reference [] }
      let st2 :=
        if !(dtruthy st1.isLocal reference) then
          { st1 with dependsOnAGlobal := dset st1.dependsOnAGlobal varName true }
        else st1
      let aff := dset st2.affects reference
        (dset ((dget st2.affects reference).getD []) varName true)
      ({ st2 with affects := aff }, .undef)
    else (st, .undef)
  else (st, .undef)

/-- The initial-value analysis pass (`analyzeInitialValues`). -/
def analyzeInitialValues (st : Stats) : Stats :=
  (dkeys st.isSingleDef).foldl
    (fun st varName =>
      if !(dtruthy st.isSingleDef varName) then st
      else
        let st1 := { st with usesOnlySimpleNodes := dset st.usesOnlySimpleNodes varName true }
        (traverse (initValCb varName) st1 ((dget st1.initialValue varName).getD .null)).1)
    st

/-- State of `calculateTransitiveDependencies`: the affects graph and the
dependsOnAGlobal flags it updates. -/
structure TDState where
  affects : Dict (Dict Bool)
  dependsOnAGlobal : Dict Bool
  deriving Repr

/-- One candidate new edge `source → t2` (lines 239-244): marks the global
flag and adds the edge if it is absent, recording the change in nextTodo. -/
def tdAddEdge (isLocal : Dict Bool) (source : String)
    (acc : TDState × Dict Unit × Bool) (t2 : String) : TDState × Dict Unit × Bool :=
  let (td, nextTodo, _) := acc
  let targets := (dget td.affects source).getD []
  if dtruthy targets t2 then acc
  else
    let td1 :=
      if !(dtruthy isLocal source) then
        { td with dependsOnAGlobal := dset td.dependsOnAGlobal t2 true }
      else td
    let td2 := { td1 with affects := dset td1.affects source (dset targets t2 true) }
    (td2, dset nextTodo source (), true)

/-- Processing of one enumerated target `t` of `source` (lines 236-247):
if `t` is on the todo list, union the current target set of `t` into that of
`source`. -/
def tdTarget (isLocal : Dict Bool) (todo : Dict Unit) (source : String)
    (acc : TDState × Dict Unit × Bool) (t : String) : TDState × Dict Unit × Bool :=
  if dhas todo t then
    (dkeys ((dget acc.1.affects t).getD [])).foldl (tdAddEdge isLocal source) acc
  else acc

/-- Processing of one source in a round of the transitive-dependency loop. -/
def tdSource (isLocal : Dict Bool) (todo : Dict Unit)
    (acc : TDState × Dict Unit × Bool) (source : String) : TDState × Dict Unit × Bool :=
  (dkeys ((dget acc.1.affects source).getD [])).foldl (tdTarget isLocal todo source) acc

/-- One iteration of the `while (incomplete)` loop of
`calculateTransitiveDependencies`. -/
def tdRound (isLocal : Dict Bool) (todo : Dict Unit) (td : TDState) :
    TDState × Dict Unit × Bool :=
  (dkeys td.affects).foldl (tdSource isLocal todo) (td, [], false)

/-- The fuelled `while (incomplete)` loop; the `Bool` result records whether
the loop exited by reaching a fixed point (rather than running out of fuel,
which the JS cannot do but a total model must account for). -/
def tdLoop (isLocal : Dict Bool) : Nat → Dict Unit → TDState → TDState × Bool
  | 0, _, td => (td, false)
  | fuel + 1, todo, td =>
    let (td1, nextTodo, inc) := tdRound isLocal todo td
    if inc then tdLoop isLocal fuel nextTodo td1 else (td1, true)

/-- All names mentioned in a dependency graph (sources and targets). -/
def tdUniverse (g : Dict (Dict Bool)) : List String :=
  (dkeys g ++ (g.map (fun p => dkeys p.2)).flatten).dedup

/-- Enough fuel to reach the fixed point: one round per possible new edge. -/
def tdFuel (g : Dict (Dict Bool)) : Nat :=
  (dkeys g).length * (tdUniverse g).length + 1

/-- The initial todo list: every source of the graph. -/
def tdInitTodo (g : Dict (Dict Bool)) : Dict Unit :=
  (dkeys g).foldl (fun d k => dset d k ()) []

/-- The transitive-dependency pass (`calculateTransitiveDependencies`);
the `Bool` reports fixpoint reach (always true, as proved below). -/
def calculateTransitiveDependencies (st : Stats) : Stats × Bool :=
  let (td, ok) := tdLoop st.isLocal (tdFuel st.affects) (tdInitTodo st.affects)
    ⟨st.affects, st.dependsOnAGlobal⟩
  ({ st with affects := td.affects, dependsOnAGlobal := td.dependsOnAGlobal }, ok)

/-- The state threaded through the live-range analysis: the `isLive` map of
`analyzeLiveRanges` plus the statistics tables (of which only
`depsMutatedInLiveRange` is written here). -/
structure LiveState where
  isLive : Dict Bool
  st : Stats
  deriving Repr

/-- The name-collection callback building `usedInThisStatement`. -/
def namesCb (used : Dict Bool) (node : List Item) (ty : String) : Dict Bool × CbRes :=
  if ty == "name" then (dset used (jsKeyOpt (node.get? 1)) true, .undef)
  else (used, .undef)

/-- The walk `while (reference[0] != 'name') reference = reference[1]` followed
by `reference = reference[1]`, extracting the base name of a mutation target.
Returns `none` where the JS would crash on a malformed tree. -/
def baseName : Item → Option String
  | .arr (.str "name" :: rest) => some (jsKeyOpt rest.head?)
  | .arr (_ :: it :: _) => baseName it
  | _ => none

/-- Kill loop `for (varName in aff) if (isLive[varName]) isLive[varName] = false`. -/
def killAffected (aff : Dict Bool) (isLive : Dict Bool) : Dict Bool :=
  (dkeys aff).foldl
    (fun live v => if dtruthy live v then dset live v false else live) isLive

/-- The `usedInThisStatement` set of `checkForMutations`: populated from
`node.slice(2, 4)` for `assign` and `call` nodes, left empty otherwise. -/
def usedInStatement (node : List Item) (ty : String) : Dict Bool :=
  if ty == "assign" || ty == "call" then
    (traverse namesCb [] (.arr ((node.drop 2).take 2))).1
  else []

/-- The `checkForMutations` visitor of `analyzeLiveRanges` (lines 262-308). -/
def checkForMutations (ls : LiveState) (node : List Item) (ty : String) : LiveState :=
  let used : Dict Bool := usedInStatement node ty
  let ls1 :=
    if ty == "assign" || ty == "unary-prefix" || ty == "unary-postfix" then
      if ty == "assign" || jsEqStr (node.get? 1) "--" || jsEqStr (node.get? 1) "++" then
        match node.get? 2 with
        | some lhs =>
          match baseName lhs with
          | some reference =>
            match dget ls.st.affects reference with
            | some aff => { ls with isLive := killAffected aff ls.isLive }
            | none => ls
          | none => ls
        | none => ls
      else ls
    else ls
  if CONTROL_FLOW_NODES.contains ty then
    let live2 := (dkeys ls1.isLive).foldl
      (fun live v =>
        if dtruthy ls1.st.dependsOnAGlobal v || !(dtruthy used v) then dset live v false
        else live)
      ls1.isLive
    { ls1 with isLive := live2 }
  else if ty == "assign" then
    let live2 := (dkeys ls1.isLive).foldl
      (fun live v =>
        if dtruthy ls1.st.dependsOnAGlobal v && !(dtruthy used v) then dset live v false
        else live)
      ls1.isLive
    { ls1 with isLive := live2 }
  else if ty == "name" then
    let reference := jsKeyOpt (node.get? 1)
    if dtruthy ls1.st.isSingleDef reference then
      if !(dtruthy ls1.isLive reference) then
        { ls1 with st := { ls1.st with
            depsMutatedInLiveRange := dset ls1.st.depsMutatedInLiveRange reference true } }
      else ls1
    else ls1
  else ls1

/-- The `traverse(varValue, checkForMutations)` call used by the `var` case. -/
def travCFM (ls : LiveState) (it : Item) : LiveState :=
  (traverse (fun ls node ty => (checkForMutations ls node ty, CbRes.undef)) ls it).1

/-- Processing of one `[name, value]` entry of a `var` node inside
`analyzeBlock` (lines 344-363). -/
def varLiveEntry (ls : LiveState) (entry : Item) : LiveState :=
  let varName := jsKeyOpt (entry.idx 0)
  let varValueOpt := entry.idx 1
  let ls1 := if jsTruthy varValueOpt then travCFM ls (varValueOpt.getD .null) else ls
  let ls2 :=
    if dtruthy ls1.st.isSingleDef varName then { ls1 with isLive := dset ls1.isLive varName true }
    else ls1
  match dget ls2.st.affects varName with
  | some aff => { ls2 with isLive := killAffected aff ls2.isLive }
  | none => ls2

/-- The fresh `savedLive` snapshot of `traverseChild`: every enumerated key of
the current `isLive` (whether its value is true or false) is recorded as true. -/
def savedOf (isLive : Dict Bool) : Dict Bool :=
  (dkeys isLive).foldl (fun d k => dset d k true) []

/-- The merge of `traverseChild`: every key that is not live after the child
traversal is marked false in the snapshot. -/
def mergeSaved (saved isLiveAfter : Dict Bool) : Dict Bool :=
  (dkeys isLiveAfter).foldl
    (fun sv name => if !(dtruthy isLiveAfter name) then dset sv name false else sv) saved

/-- Access `node[i]` as a single child to hand to `traverseChild`: a missing
slot reads as `undefined`, which `traverseChild` ignores exactly as it
ignores every non-array; both are modelled by the non-recursable `null`. -/
def childAt (node : List Item) (i : Nat) : Item :=
  (node.get? i).getD Item.null

/-- Access `node[i]` as a list to iterate over (`for (i...node2.length)`):
anything but an array yields no iterations. -/
def childrenAt (node : List Item) (i : Nat) : List Item :=
  match node.get? i with
  | some (.arr l) => l
  | _ => []

mutual
/-- Specialisation of `traverse(node, analyzeBlock)`: the callback never
stops the traversal and only ever returns the node itself, so the tree is
unchanged and only the state evolves. -/
def analyzeTraverse (ls : LiveState) : Item → LiveState
  | .arr l =>
    match headType l with
    | some ty =>
      let (ls1, handled) := analyzeBlock ls l ty
      if handled then ls1 else analyzeChildren ls1 (some ty) l
    | none => analyzeChildren ls none l
  | _ => ls
termination_by it => 3 * sizeOf it

/-- The child loop of the live-range traversal for unhandled node kinds. -/
def analyzeChildren (ls : LiveState) (ty : Option String) : List Item → LiveState
  | [] => ls
  | child :: rest =>
    if isRecursable child && !skipForIn ty child then
      analyzeChildren (analyzeTraverse ls child) ty rest
    else
      analyzeChildren ls ty rest
termination_by l => 3 * sizeOf l

/-- The `analyzeBlock` visitor (lines 312-368); the `Bool` result is the JS
truthiness of its return value (`node` for the handled block shapes,
`undefined` otherwise). -/
def analyzeBlock (ls : LiveState) (node : List Item) (ty : String) : LiveState × Bool :=
  if ANALYZE_BLOCK_TYPES.contains ty then
    if ty == "switch" then
      let ls1 := traverseChild ls (childAt node 1)
      (traverseChildList ls1 (childrenAt node 2), true)
    else if ty == "if" || ty == "try" then
      (traverseChildList ls node, true)
    else
      let ls1 := traverseChildList { ls with isLive := [] } node
      ({ ls1 with isLive := [] }, true)
  else if ty == "var" then
    ((childrenAt node 1).foldl varLiveEntry ls, true)
  else
    (checkForMutations ls node ty, false)
termination_by 3 * sizeOf node + 2
decreasing_by
  all_goals simp_wf
  · have hle : sizeOf (childAt node 1) ≤ sizeOf node := by
      simp only [childAt]
      cases hx : node.get? 1 with
      | some c =>
        have hmem := List.sizeOf_lt_of_mem (List.get?_mem hx)
        simp
        omega
      | none => cases node <;> simp <;> try omega
    omega
  · have hle : sizeOf (childrenAt node 2) ≤ sizeOf node := by
      simp only [childrenAt]
      cases hx : node.get? 2 with
      | some c =>
        cases c with
        | arr l2 =>
          have hmem := List.sizeOf_lt_of_mem (List.get?_mem hx)
          simp at hmem ⊢
          omega
        | str s => cases node <;> simp <;> try omega
        | num n => cases node <;> simp <;> try omega
        | bool b => cases node <;> simp <;> try omega
        | null => cases node <;> simp <;> try omega
      | none => cases node <;> simp <;> try omega
    omega

/-- The `traverseChild` helper with its snapshot-and-merge of `isLive`. -/
def traverseChild (ls : LiveState) (child : Item) : LiveState :=
  if isRecursable child then
    let saved := savedOf ls.isLive
    let lsA := analyzeTraverse ls child
    { lsA with isLive := mergeSaved saved lsA.isLive }
  else ls
termination_by 3 * sizeOf child + 1

/-- The `node.forEach(traverseChild)` loop. -/
def traverseChildList (ls : LiveState) : List Item → LiveState
  | [] => ls
  | child :: rest => traverseChildList (traverseChild ls child) rest
termination_by l => 3 * sizeOf l
end

/-- The live-range analysis pass (`analyzeLiveRanges`). -/
def analyzeLiveRanges (st : Stats) (body : List Item) : Stats :=
  (analyzeTraverse ⟨[], st⟩ (.arr body)).st

mutual
/-- Fuelled twin of `analyzeTraverse` used to evaluate the analyzer on
concrete inputs by kernel reduction; proved equal to `analyzeTraverse` for
sufficient fuel below. -/
def analyzeTraverseF : Nat → LiveState → Item → LiveState
  | 0, ls, _ => ls
  | fuel + 1, ls, it =>
    match it with
    | .arr l =>
      match headType l with
      | some ty =>
        let (ls1, handled) := analyzeBlockF fuel ls l ty
        if handled then ls1 else analyzeChildrenF fuel ls1 (some ty) l
      | none => analyzeChildrenF fuel ls none l
    | _ => ls

/-- Fuelled twin of `analyzeChildren`. -/
def analyzeChildrenF : Nat → LiveState → Option String → List Item → LiveState
  | 0, ls, _, _ => ls
  | fuel + 1, ls, ty, l =>
    match l with
    | [] => ls
    | child :: rest =>
      if isRecursable child && !skipForIn ty child then
        analyzeChildrenF fuel (analyzeTraverseF fuel ls child) ty rest
      else
        analyzeChildrenF fuel ls ty rest

/-- Fuelled twin of `analyzeBlock`. -/
def analyzeBlockF : Nat → LiveState → List Item → String → LiveState × Bool
  | 0, ls, _, _ => (ls, false)
  | fuel + 1, ls, node, ty =>
    if ANALYZE_BLOCK_TYPES.contains ty then
      if ty == "switch" then
        let ls1 := traverseChildF fuel ls (childAt node 1)
        (traverseChildListF fuel ls1 (childrenAt node 2), true)
      else if ty == "if" || ty == "try" then
        (traverseChildListF fuel ls node, true)
      else
        let ls1 := traverseChildListF fuel { ls with isLive := [] } node
        ({ ls1 with isLive := [] }, true)
    else if ty == "var" then
      ((childrenAt node 1).foldl varLiveEntry ls, true)
    else
      (checkForMutations ls node ty, false)

/-- Fuelled twin of `traverseChild`. -/
def traverseChildF : Nat → LiveState → Item → LiveState
  | 0, ls, _ => ls
  | fuel + 1, ls, child =>
    if isRecursable child then
      let saved := savedOf ls.isLive
      let lsA := analyzeTraverseF fuel ls child
      { lsA with isLive := mergeSaved saved lsA.isLive }
    else ls

/-- Fuelled twin of `traverseChildList`. -/
def traverseChildListF : Nat → LiveState → List Item → LiveState
  | 0, ls, _ => ls
  | fuel + 1, ls, l =>
    match l with
    | [] => ls
    | child :: rest => traverseChildListF fuel (traverseChildF fuel ls child) rest
end

mutual
/-- Executable size measure of an item, used to compute sufficient fuel. -/
def itemSize : Item → Nat
  | .arr l => 1 + itemListSize l
  | _ => 1

/-- Executable size measure of a list of items. -/
def itemListSize : List Item → Nat
  | [] => 1
  | it :: rest => 1 + itemSize it + itemListSize rest
end

/-- The fuelled live-range analysis used for concrete evaluation. -/
def analyzeLiveRangesF (st : Stats) (body : List Item) : Stats :=
  (analyzeTraverseF (4 * itemSize (Item.arr body)) ⟨[], st⟩ (.arr body)).st

/-- The eliminability decision (`isEliminateable`, lines 375-384). -/
def isEliminateable (st : Stats) (varName : String) : Bool :=
  if dtruthy st.isSingleDef varName && dtruthy st.usesOnlySimpleNodes varName then
    if (dget st.useCount varName).getD 0 == 0 then true
    else if (dget st.useCount varName).getD 0 <= MAX_USES then
      !(dtruthy st.depsMutatedInLiveRange varName)
    else false
  else false

/-- The callback of `removeDeclarations`. -/
def removeDeclCb (toRemove : Dict Item) (u : Unit) (node : List Item) (ty : String) :
    Unit × CbRes :=
  if ty == "var" then
    let entries := match node.get? 1 with | some (.arr l) => l | _ => []
    let intact := entries.filter (fun e => !(dhas toRemove (jsKeyOpt (e.idx 0))))
    if intact.length != 0 then
      (u, .repl (.arr (node.set 1 (.arr intact))))
    else
      (u, .repl (.arr [.str "toplevel", .arr []]))
  else (u, .undef)

/-- The `removeDeclarations` rewriting pass. -/
def removeDeclarations (toRemove : Dict Item) (body : List Item) : List Item :=
  match (traverse (removeDeclCb toRemove) () (.arr body)).2.1 with
  | .arr l => l
  | it => [it]

/-- The callback of one `collapseValues` traversal over the value of
`varName`; the JS reads the shared `values` object, which cannot change
during a single traversal, and flips the shared `incomplete` flag. -/
def collapseCb (values : Dict Item) (varName : String) (inc : Bool)
    (node : List Item) (ty : String) : Bool × CbRes :=
  if ty == "name" then
    let reference := jsKeyOpt (node.get? 1)
    if dhas values reference && reference != varName then
      (true, .repl ((dget values reference).getD .null))
    else (inc, .undef)
  else (inc, .undef)

/-- One entry of the `for (varName in values)` loop of `collapseValues`. -/
def collapseStep (acc : Dict Item × Bool) (varName : String) : Dict Item × Bool :=
  let (values, inc) := acc
  let varValue := (dget values varName).getD .null
  let (inc2, node2, res) := traverse (collapseCb values varName) inc varValue
  let newVal := match res with | .repl r => r | _ => node2
  (dset values varName newVal, inc2)

/-- The fuelled `while (incomplete)` loop of `collapseValues`; the `Bool`
result records whether a fixed point was reached (the JS loop would
otherwise diverge, which the termination theorem below rules out for
acyclic inputs). -/
def collapseLoop : Nat → Dict Item → Dict Item × Bool
  | 0, values => (values, false)
  | fuel + 1, values =>
    let (values2, inc) := (dkeys values).foldl collapseStep (values, false)
    if inc then collapseLoop fuel values2 else (values2, true)

/-- The `collapseValues` rewriting pass (fuelled model of the JS loop). -/
def collapseValues (values : Dict Item) : Dict Item × Bool :=
  collapseLoop (values.length + 2) values

/-- The callback of `updateUses`. -/
def updateUsesCb (replacements : Dict Item) (u : Unit) (node : List Item) (ty : String) :
    Unit × CbRes :=
  if ty == "name" && dhas replacements (jsKeyOpt (node.get? 1)) then
    (u, .repl ((dget replacements (jsKeyOpt (node.get? 1))).getD .null))
  else (u, .undef)

/-- The `updateUses` rewriting pass. -/
def updateUses (replacements : Dict Item) (body : List Item) : List Item :=
  match (traverse (updateUsesCb replacements) () (.arr body)).2.1 with
  | .arr l => l
  | it => [it]

/-- The loop of `run` that builds `toReplace` and counts eliminated bindings. -/
def gatherEliminated (st : Stats) : Dict Item × Nat :=
  (dkeys st.isSingleDef).foldl
    (fun (acc : Dict Item × Nat) varName =>
      if isEliminateable st varName then
        (dset acc.1 varName ((dget st.initialValue varName).getD .null), acc.2 + 1)
      else acc)
    ([], 0)

/-- The full statistics pipeline of `run` before rewriting starts. -/
def analyzeAll (body : List Item) : Stats :=
  let st := calculateBasicVarStats initialStats body
  let st := analyzeInitialValues st
  let st := (calculateTransitiveDependencies st).1
  analyzeLiveRanges st body

/-- The `Eliminator.run` entry point (`optimize_function`): returns the
rewritten body and the number of eliminated bindings. -/
def run (body : List Item) : List Item × Nat :=
  let st := analyzeAll body
  let gathered := gatherEliminated st
  let body1 := removeDeclarations gathered.1 body
  let collapsed := (collapseValues gathered.1).1
  let body2 := updateUses collapsed body1
  (body2, gathered.2)

/-- Fuelled twin of `analyzeAll` for concrete evaluation. -/
def analyzeAllF (body : List Item) : Stats :=
  let st := calculateBasicVarStats initialStats body
  let st := analyzeInitialValues st
  let st := (calculateTransitiveDependencies st).1
  analyzeLiveRangesF st body

/-- Fuelled twin of `run` for concrete evaluation. -/
def runF (body : List Item) : List Item × Nat :=
  let st := analyzeAllF body
  let gathered := gatherEliminated st
  let body1 := removeDeclarations gathered.1 body
  let collapsed := (collapseValues gathered.1).1
  let body2 := updateUses collapsed body1
  (body2, gathered.2)

/-- State of the inner gathering traversal of the `ExpressionOptimizer`. -/
structure GatherState where
  names : List String
  num : Int
  hasNum : Bool
  fail : Bool
  deriving Repr

/-- The inner callback of the `ExpressionOptimizer` collecting leaves of a
chain of additions. -/
def gatherCb (gs : GatherState) (node : List Item) (ty : String) : GatherState × CbRes :=
  if ty == "binary" then
    if !(jsEqStr (node.get? 1) "+") then ({ gs with fail := true }, .fls)
    else (gs, .undef)
  else if ty == "name" then
    ({ gs with names := gs.names ++ [jsKeyOpt (node.get? 1)] }, .undef)
  else if ty == "num" then
    match node.get? 1 with
    | some (.num n) => ({ gs with num := gs.num + n, hasNum := true }, .undef)
    | _ => ({ gs with hasNum := true }, .undef)
  else
    ({ gs with fail := true }, .fls)

/-- The gathering traversal run on a candidate `binary +` node. -/
def gatherChain (node : List Item) : GatherState :=
  (traverse gatherCb ⟨[], 0, false, false⟩ (.arr node)).1

/-- Rebuilding `ret = ['binary', '+', ['name', names[i]], ret]` over an
initial `['num', num]`. -/
def rebuildChain (names : List String) (num : Int) : Item :=
  names.foldl
    (fun ret n => .arr [.str "binary", .str "+", .arr [.str "name", .str n], ret])
    (.arr [.str "num", .num num])

/-- The callback of the `ExpressionOptimizer` traversal. -/
def exprCb (u : Unit) (node : List Item) (ty : String) : Unit × CbRes :=
  if ty == "binary" && jsEqStr (node.get? 1) "+" then
    let gs := gatherChain node
    if !gs.fail && gs.hasNum then
      (u, .repl (rebuildChain gs.names gs.num))
    else (u, .undef)
  else (u, .undef)

/-- The `ExpressionOptimizer.run` entry point (`fold_additions`): the traverse
result is discarded, so in-place mutation only affects proper subtrees. -/
def exprRun (node : Item) : Item :=
  (traverse exprCb () node).2.1

mutual
/-- Spec-side notion for the control-flow claim: the names syntactically
appearing inside a node (ids of all `name` subnodes, the node itself
included). -/
def syntacticNames : Item → List String
  | .arr (.str "name" :: .str s :: rest) => s :: syntacticNamesList rest
  | .arr l => syntacticNamesList l
  | _ => []

/-- Names appearing in any element of a list of items. -/
def syntacticNamesList : List Item → List String
  | [] => []
  | it :: rest => syntacticNames it ++ syntacticNamesList rest
end

/-- Spec-side rebuilding of an addition chain exactly as written in the spec,
`((num) + name0) + name1 ...`: the constant leftmost-innermost and each name
joined as the right operand. -/
def specRebuildChain (names : List String) (num : Int) : Item :=
  names.foldl
    (fun acc n => .arr [.str "binary", .str "+", acc, .arr [.str "name", .str n]])
    (.arr [.str "num", .num num])

/-- Example function body `var i = 0; i++;` (as uglify statements). -/
def exBodyIncr : List Item :=
  [.arr [.str "var", .arr [.arr [.str "i", .arr [.str "num", .num 0]]]],
   .arr [.str "stat", .arr [.str "unary-postfix", .str "++", .arr [.str "name", .str "i"]]]]

/-- Example node `throw a;`. -/
def exThrowNode : Item := .arr [.str "throw", .arr [.str "name", .str "a"]]

/-- A live-state example with one live binding and empty tables. -/
def exLiveState : LiveState := ⟨[("a", true)], initialStats⟩

/-- An observer that counts its calls and always returns the stop signal
`false`. -/
def stopCountCb (n : Nat) (node : List Item) (ty : String) : Nat × CbRes :=
  let _ := node
  let _ := ty
  (n + 1, .fls)

/-- Example expression `x + 1 + y`, parsed left-associated. -/
def exChain : List Item :=
  [.str "binary", .str "+",
   .arr [.str "binary", .str "+", .arr [.str "name", .str "x"], .arr [.str "num", .num 1]],
   .arr [.str "name", .str "y"]]

/-- What the code actually builds for `exChain`: `y + (x + 1)`. -/
def exMirror : Item :=
  .arr [.str "binary", .str "+", .arr [.str "name", .str "y"],
        .arr [.str "binary", .str "+", .arr [.str "name", .str "x"], .arr [.str "num", .num 1]]]

/-- Direct-edge relation of a dependency graph: `edgeOf g s t` when `t` is a
recorded (true-valued) target of source `s`. -/
def edgeOf (g : Dict (Dict Bool)) (s t : String) : Prop :=
  dtruthy ((dget g s).getD []) t = true


/-- Shape check for a well-formed `name` node: exactly `['name', 'x']`. -/
def wfNameShape : List Item → Bool
  | [_, .str _] => true
  | _ => false

mutual
/-- Claim-side well-formedness of an AST value: every array node carries a
string tag, `name` nodes are exactly `['name', 'x']`, and no node is a
`for-in` (initializer expressions never are). -/
def wfTree : Item → Bool
  | .arr l =>
    (match headType l with
     | some ty =>
       if ty == "name" then wfNameShape l
       else ty != "for-in" && wfTreeList l
     | none => false)
  | _ => true

/-- Well-formedness of every item of a list. -/
def wfTreeList : List Item → Bool
  | [] => true
  | it :: rest => wfTree it && wfTreeList rest
end

/-- The name referenced by a node itself, when it is a `name` node. -/
def headRef (l : List Item) : List String :=
  match headType l with
  | some ty => if ty == "name" then [jsKeyOpt (l.get? 1)] else []
  | none => []

mutual
/-- Claim-side collection of the identifiers of all `name` nodes of a tree. -/
def refNames : Item → List String
  | .arr l => headRef l ++ refNamesList l
  | _ => []

/-- Name references appearing in any element of a list. -/
def refNamesList : List Item → List String
  | [] => []
  | it :: rest => refNames it ++ refNamesList rest
end

/-- The final value of a traversal: the replacement when the callback replaced
the root, the in-place mutated node otherwise. -/
def finOf (p : Bool × Item × TravRes) : Item :=
  match p.2.2 with
  | .repl r => r
  | _ => p.2.1

def ecnt (S U : List String) (G : Dict (Dict Bool)) : Nat :=
  (S.map (fun s => (U.filter (fun t => dtruthy ((dget G s).getD []) t)).length)).sum

/-- Targets addable at `x` from a pass over middles `ys` of the snapshot `G`:
`z` is a key of the target set of some middle on the todo list. -/
def extAdd (T : Dict Unit) (G : Dict (Dict Bool)) (ys : List String) (z : String) : Prop :=
  ∃ y, y ∈ ys ∧ dhas T y = true ∧ z ∈ dkeys ((dget G y).getD [])

/-- Worklist invariant of `calculateTransitiveDependencies` between rounds:
a missing composition always has a todo middle vertex. -/
def inv4 (A : Dict (Dict Bool)) (T : Dict Unit) : Prop :=
  ∀ s t u, edgeOf A s t → edgeOf A t u → ¬edgeOf A s u →
    ∃ m, edgeOf A s m ∧ dhas T m = true ∧ edgeOf A m u

/-- Mid-round resolution state of one source `x`: every composition through a
round-start second edge is resolved, guarded by the next todo list, or pending
behind an unprocessed source. -/
def qprop (A : Dict (Dict Bool)) (T : Dict Unit) (R : List String)
    (Ac : Dict (Dict Bool)) (Nc : Dict Unit) (x : String) : Prop :=
  ∀ t u, edgeOf Ac x t → edgeOf A t u →
    edgeOf Ac x u
    ∨ (∃ w, edgeOf Ac x w ∧ dhas Nc w = true ∧ edgeOf Ac w u)
    ∨ (∃ w, edgeOf Ac x w ∧ w ∈ R ∧ ¬edgeOf A w u ∧
        ∃ m, edgeOf A w m ∧ dhas T m = true ∧ edgeOf A m u)

/-- The invariant carried through one round of the transitive-dependency
loop, with `R` the sources still to process. -/
structure TDMid (L : Dict Bool) (U : List String) (A : Dict (Dict Bool))
    (T : Dict Unit) (R : List String) (σ : TDState × Dict Unit × Bool) : Prop where
  mono : ∀ s t, edgeOf A s t → edgeOf σ.1.affects s t
  dom : ∀ q, dhas σ.1.affects q = dhas A q
  rem : ∀ x, x ∈ R → dget σ.1.affects x = dget A x
  qdone : ∀ x, ¬x ∈ R → qprop A T R σ.1.affects σ.2.1 x
  nstab : ∀ q, dhas σ.2.1 q = false → ∀ z, edgeOf σ.1.affects q z ↔ edgeOf A q z
  incf : σ.2.2 = false →
    (∀ q z, edgeOf σ.1.affects q z ↔ edgeOf A q z) ∧ (∀ q, dhas σ.2.1 q = false)
  vt : ∀ q d, dget σ.1.affects q = some d → ∀ p ∈ d, p.2 = true
  univ : ∀ q d, dget σ.1.affects q = some d → ∀ z ∈ dkeys d, z ∈ U
  flags : ∀ s t, edgeOf σ.1.affects s t → dtruthy L s = false →
    dtruthy σ.1.dependsOnAGlobal t = true
  ngrow : ∀ q z, edgeOf σ.1.affects q z → ¬edgeOf A q z → dhas σ.2.1 q = true
  grow : σ.2.2 = true → ecnt (dkeys A) U A + 1 ≤ ecnt (dkeys A) U σ.1.affects
  sound : ∀ q z, edgeOf σ.1.affects q z → Relation.TransGen (edgeOf A) q z
  keys : dkeys σ.1.affects = dkeys A

/-- Loop-level invariant of the transitive-dependency computation, relative to
the original graph `G0`. -/
structure TDLoopInv (L : Dict Bool) (U : List String) (G0 : Dict (Dict Bool))
    (T : Dict Unit) (td : TDState) : Prop where
  i4 : inv4 td.affects T
  base : ∀ s t, edgeOf G0 s t → edgeOf td.affects s t
  vt : ∀ q d, dget td.affects q = some d → ∀ p ∈ d, p.2 = true
  univ : ∀ q d, dget td.affects q = some d → ∀ z ∈ dkeys d, z ∈ U
  flags : ∀ s t, edgeOf td.affects s t → dtruthy L s = false →
    dtruthy td.dependsOnAGlobal t = true
  sound : ∀ s t, edgeOf td.affects s t → Relation.TransGen (edgeOf G0) s t
  keys : dkeys td.affects = dkeys G0

/-- A concrete two-edge dependency chain `a → b → c` with `a` local and the
direct targets already flag-consistent. -/
def c5State : Stats :=
  { initialStats with
      affects := [("a", [("b", true)]), ("b", [("c", true)])],
      isLocal := [("a", true)],
      dependsOnAGlobal := [("c", true)] }


/-! Lemmas about sizes, dictionaries, and the fuelled twins; then the claim
theorems. -/

theorem itemListSize_pos (l : List Item) : 1 ≤ itemListSize l := by
  cases l with
  | nil => simp [itemListSize]
  | cons a r => simp [itemListSize]; omega

theorem itemSize_pos (it : Item) : 1 ≤ itemSize it := by
  cases it <;> simp [itemSize, itemListSize]

theorem itemSize_lt_of_mem {a : Item} {l : List Item} (h : a ∈ l) :
    itemSize a < itemListSize l := by
  induction l with
  | nil => cases h
  | cons b rest ih =>
    rcases List.mem_cons.mp h with he | hm
    · subst he
      have := itemListSize_pos rest
      simp [itemListSize]
      omega
    · have h1 := ih hm
      have h2 := itemSize_pos b
      simp [itemListSize]
      omega

theorem itemSize_childAt_le (node : List Item) (i : Nat) :
    itemSize (childAt node i) ≤ itemListSize node := by
  unfold childAt
  cases hx : node.get? i with
  | some c =>
    simp only [Option.getD]
    exact le_of_lt (itemSize_lt_of_mem (List.get?_mem hx))
  | none =>
    simp only [Option.getD, itemSize]
    exact itemListSize_pos node

theorem itemListSize_childrenAt_le (node : List Item) (i : Nat) :
    itemListSize (childrenAt node i) ≤ itemListSize node := by
  unfold childrenAt
  cases hx : node.get? i with
  | some c =>
    cases c with
    | arr l2 =>
      have h1 := itemSize_lt_of_mem (List.get?_mem hx)
      simp only [itemSize] at h1
      simp only []
      omega
    | str s => simpa using itemListSize_pos node
    | num n => simpa using itemListSize_pos node
    | bool b => simpa using itemListSize_pos node
    | null => simpa using itemListSize_pos node
  | none => simpa using itemListSize_pos node

theorem analyzeEquivAll : ∀ fuel : Nat,
    (∀ ls it, 4 * itemSize it ≤ fuel → analyzeTraverseF fuel ls it = analyzeTraverse ls it) ∧
    (∀ ls ty l, 4 * itemListSize l ≤ fuel → analyzeChildrenF fuel ls ty l = analyzeChildren ls ty l) ∧
    (∀ ls node ty, 4 * itemListSize node + 3 ≤ fuel →
      analyzeBlockF fuel ls node ty = analyzeBlock ls node ty) ∧
    (∀ ls c, 4 * itemSize c + 2 ≤ fuel → traverseChildF fuel ls c = traverseChild ls c) ∧
    (∀ ls l, 4 * itemListSize l ≤ fuel → traverseChildListF fuel ls l = traverseChildList ls l) := by
  intro fuel
  induction fuel with
  | zero =>
    refine ⟨?_, ?_, ?_, ?_, ?_⟩
    · intro ls it h; have := itemSize_pos it; omega
    · intro ls ty l h; have := itemListSize_pos l; omega
    · intro ls node ty h; have := itemListSize_pos node; omega
    · intro ls c h; have := itemSize_pos c; omega
    · intro ls l h; have := itemListSize_pos l; omega
  | succ fuel ih =>
    obtain ⟨ihT, ihC, ihB, ihTC, ihTCL⟩ := ih
    refine ⟨?_, ?_, ?_, ?_, ?_⟩
    · intro ls it h
      cases it with
      | arr l =>
        have hsz : itemSize (Item.arr l) = 1 + itemListSize l := by simp [itemSize]
        have gB : ∀ ty, analyzeBlockF fuel ls l ty = analyzeBlock ls l ty :=
          fun ty => ihB ls l ty (by omega)
        have gC : ∀ ls2 ty2, analyzeChildrenF fuel ls2 ty2 l = analyzeChildren ls2 ty2 l :=
          fun ls2 ty2 => ihC ls2 ty2 l (by omega)
        rw [analyzeTraverse]
        simp only [analyzeTraverseF, gB, gC]
      | str s => simp [analyzeTraverse, analyzeTraverseF]
      | num n => simp [analyzeTraverse, analyzeTraverseF]
      | bool b => simp [analyzeTraverse, analyzeTraverseF]
      | null => simp [analyzeTraverse, analyzeTraverseF]
    · intro ls ty l h
      cases l with
      | nil => simp [analyzeChildren, analyzeChildrenF]
      | cons child rest =>
        have hsz : itemListSize (child :: rest) = 1 + itemSize child + itemListSize rest := rfl
        have h2 := itemSize_pos child
        have h3 := itemListSize_pos rest
        rw [analyzeChildren]
        simp only [analyzeChildrenF]
        by_cases hg : (isRecursable child && !skipForIn ty child) = true
        · simp only [hg, if_true]
          rw [ihT ls child (by omega), ihC _ ty rest (by omega)]
        · simp only [hg, if_false]
          exact ihC ls ty rest (by omega)
    · intro ls node ty h
      have hca := itemSize_childAt_le node 1
      have hcl2 := itemListSize_childrenAt_le node 2
      have gTC : traverseChildF fuel ls (childAt node 1) = traverseChild ls (childAt node 1) :=
        ihTC ls (childAt node 1) (by omega)
      have gTCL1 : ∀ ls2, traverseChildListF fuel ls2 (childrenAt node 2) =
          traverseChildList ls2 (childrenAt node 2) :=
        fun ls2 => ihTCL ls2 (childrenAt node 2) (by omega)
      have gTCL2 : ∀ ls2, traverseChildListF fuel ls2 node = traverseChildList ls2 node :=
        fun ls2 => ihTCL ls2 node (by omega)
      rw [analyzeBlock]
      simp only [analyzeBlockF, gTC, gTCL1, gTCL2]
    · intro ls c h
      rw [traverseChild]
      simp only [traverseChildF]
      by_cases hr : isRecursable c = true
      · simp only [hr, if_true]
        rw [ihT ls c (by omega)]
      · simp [hr]
    · intro ls l h
      cases l with
      | nil => simp [traverseChildList, traverseChildListF]
      | cons child rest =>
        have hsz : itemListSize (child :: rest) = 1 + itemSize child + itemListSize rest := rfl
        have h2 := itemSize_pos child
        rw [traverseChildList]
        simp only [traverseChildListF]
        rw [ihTC ls child (by omega), ihTCL _ rest (by omega)]

theorem analyzeLiveRangesF_eq (st : Stats) (body : List Item) :
    analyzeLiveRangesF st body = analyzeLiveRanges st body := by
  unfold analyzeLiveRangesF analyzeLiveRanges
  rw [(analyzeEquivAll (4 * itemSize (Item.arr body))).1 ⟨[], st⟩ (.arr body) (by omega)]

theorem analyzeAllF_eq (body : List Item) : analyzeAllF body = analyzeAll body := by
  unfold analyzeAllF analyzeAll
  rw [analyzeLiveRangesF_eq]

theorem runF_eq (body : List Item) : runF body = run body := by
  unfold runF run
  rw [analyzeAllF_eq]

theorem dhas_false_dget {α : Type} {d : Dict α} {k : String} (h : dhas d k = false) :
    dget d k = none := by
  induction d with
  | nil => rfl
  | cons p rest ih =>
    simp [dhas] at h
    simp [dget, h.1, ih h.2]

theorem map_dset_id {α : Type} {d : Dict α} {k : String} (v : α) (h : dhas d k = false) :
    d.map (fun p => if p.1 = k then (k, v) else p) = d := by
  induction d with
  | nil => rfl
  | cons p rest ih =>
    simp [dhas] at h
    simp [h.1, ih h.2]

theorem dget_dset_self {α : Type} (d : Dict α) (k : String) (v : α) :
    dget (dset d k v) k = some v := by
  induction d with
  | nil => simp [dset, dhas, dget]
  | cons p rest ih =>
    by_cases hp : p.1 = k
    · simp [dset, dhas, hp, dget]
    · by_cases hr : dhas rest k
      · simpa [dset, dhas, hp, hr, dget] using ih
      · simpa [dset, dhas, hp, hr, dget] using ih

theorem dget_dset_ne {α : Type} (d : Dict α) (k k2 : String) (v : α) (h : ¬(k = k2)) :
    dget (dset d k v) k2 = dget d k2 := by
  induction d with
  | nil => simp [dset, dhas, dget, h]
  | cons p rest ih =>
    by_cases hp : p.1 = k
    · by_cases hp2 : p.1 = k2
      · exact absurd (hp.symm.trans hp2) h
      · by_cases hr : dhas rest k
        · have ih2 : dget (dset rest k v) k2 = dget rest k2 := ih
          simp [dset, dhas, hr] at ih2
          simp [dset, dhas, hp, hp2, dget, h, ih2]
        · simp [dset, dhas, hp, hp2, dget, h,
            map_dset_id v (Bool.eq_false_iff.mpr hr)]
    · have ih2 : dget (dset rest k v) k2 = dget rest k2 := ih
      by_cases hr : dhas rest k
      · simp [dset, dhas, hr] at ih2
        simp [dset, dhas, hp, hr, dget, ih2]
      · simp [dset, dhas, hr] at ih2
        simp [dset, dhas, hp, hr, dget, ih2]

theorem dget_dset {α : Type} (d : Dict α) (k k2 : String) (v : α) :
    dget (dset d k v) k2 = if k = k2 then some v else dget d k2 := by
  by_cases h : k = k2
  · subst h; simp [dget_dset_self]
  · simp [h, dget_dset_ne d k k2 v h]

theorem dget_some_mem_dkeys {α : Type} {d : Dict α} {k : String} {v : α}
    (h : dget d k = some v) : k ∈ dkeys d := by
  induction d with
  | nil => simp [dget] at h
  | cons p rest ih =>
    by_cases hp : p.1 = k
    · simp [dkeys, hp]
    · simp [dget, hp] at h
      simp [dkeys]
      right
      simpa [dkeys] using ih h

theorem dtruthy_iff {d : Dict Bool} {k : String} :
    dtruthy d k = true ↔ dget d k = some true := by
  unfold dtruthy
  cases hg : dget d k with
  | none => simp
  | some b => cases b <;> simp

theorem dtruthy_dset_ne (d : Dict Bool) (k k2 : String) (b : Bool) (h : ¬(k = k2)) :
    dtruthy (dset d k b) k2 = dtruthy d k2 := by
  simp [dtruthy, dget_dset_ne d k k2 b h]

theorem dget_foldl_kill_cond (cond : String → Bool) (ks : List String)
    (live : Dict Bool) (v : String) :
    dget (ks.foldl (fun l k => if cond k then dset l k false else l) live) v =
      if v ∈ ks ∧ cond v = true then some false else dget live v := by
  induction ks generalizing live with
  | nil => simp
  | cons k rest ih =>
    simp only [List.foldl_cons]
    rw [ih]
    by_cases hcv : cond v = true
    · by_cases hk : k = v
      · subst hk
        have h1 : dget (if cond k = true then dset live k false else live) k = some false := by
          rw [if_pos hcv, dget_dset_self]
        by_cases hm : k ∈ rest
        · simp [hm, hcv, h1]
        · simp [hm, hcv, h1, dget_dset_self]
      · have h1 : dget (if cond k = true then dset live k false else live) v = dget live v := by
          by_cases hck : cond k = true
          · rw [if_pos hck, dget_dset_ne live k v false hk]
          · rw [if_neg hck]
        have hmm : (v ∈ k :: rest) ↔ (v ∈ rest) := by
          rw [List.mem_cons]
          constructor
          · rintro (he | hi)
            · exact absurd he.symm hk
            · exact hi
          · exact Or.inr
        simp only [h1, hmm]
    · have hcv2 : cond v = false := Bool.eq_false_iff.mpr hcv
      have h1 : dget (if cond k = true then dset live k false else live) v = dget live v := by
        by_cases hk : k = v
        · subst hk
          rw [hcv2, if_neg (by simp)]
        · by_cases hck : cond k = true
          · rw [if_pos hck, dget_dset_ne live k v false hk]
          · rw [if_neg hck]
      simp [hcv2, h1]

theorem dget_killAffected (aff : Dict Bool) (live : Dict Bool) (v : String) :
    dget (killAffected aff live) v =
      if v ∈ dkeys aff ∧ dtruthy live v = true then some false else dget live v := by
  unfold killAffected
  generalize dkeys aff = ks
  induction ks generalizing live with
  | nil => simp
  | cons k rest ih =>
    simp only [List.foldl_cons]
    rw [ih]
    by_cases hk : k = v
    · subst hk
      by_cases ht : dtruthy live k = true
      · have hl1 : (if dtruthy live k = true then dset live k false else live) =
            dset live k false := if_pos ht
        have h2 : dtruthy (dset live k false) k = false := by
          simp [dtruthy, dget_dset_self]
        have h3 : dget (dset live k false) k = some false := dget_dset_self live k false
        simp [hl1, h2, h3, ht]
      · have hl1 : (if dtruthy live k = true then dset live k false else live) = live :=
          if_neg ht
        simp [hl1, ht]
    · have h1 : dget (if dtruthy live k = true then dset live k false else live) v =
          dget live v := by
        by_cases ht : dtruthy live k = true
        · rw [if_pos ht, dget_dset_ne live k v false hk]
        · rw [if_neg ht]
      have h2 : dtruthy (if dtruthy live k = true then dset live k false else live) v =
          dtruthy live v := by
        by_cases ht : dtruthy live k = true
        · rw [if_pos ht]; exact dtruthy_dset_ne live k v false hk
        · rw [if_neg ht]
      have hmm : (v ∈ k :: rest) ↔ (v ∈ rest) := by
        rw [List.mem_cons]
        constructor
        · rintro (he | hi)
          · exact absurd he.symm hk
          · exact hi
        · exact Or.inr
      simp only [h1, h2, hmm]



theorem dget_foldl_kill_prop (cond : String → Prop) [DecidablePred cond] (ks : List String)
    (live : Dict Bool) (v : String) :
    dget (ks.foldl (fun l k => if cond k then dset l k false else l) live) v =
      if v ∈ ks ∧ cond v then some false else dget live v := by
  induction ks generalizing live with
  | nil => simp
  | cons k rest ih =>
    simp only [List.foldl_cons]
    rw [ih]
    by_cases hcv : cond v
    · by_cases hk : k = v
      · subst hk
        have h1 : dget (if cond k then dset live k false else live) k = some false := by
          rw [if_pos hcv, dget_dset_self]
        by_cases hm : k ∈ rest
        · simp [hm, hcv, h1]
        · simp [hm, hcv, h1, dget_dset_self]
      · have h1 : dget (if cond k then dset live k false else live) v = dget live v := by
          by_cases hck : cond k
          · rw [if_pos hck, dget_dset_ne live k v false hk]
          · rw [if_neg hck]
        have hmm : (v ∈ k :: rest) ↔ (v ∈ rest) := by
          rw [List.mem_cons]
          constructor
          · rintro (he | hi)
            · exact absurd he.symm hk
            · exact hi
          · exact Or.inr
        simp only [h1, hmm]
    · have h1 : dget (if cond k then dset live k false else live) v = dget live v := by
        by_cases hk : k = v
        · subst hk
          rw [if_neg hcv]
        · by_cases hck : cond k
          · rw [if_pos hck, dget_dset_ne live k v false hk]
          · rw [if_neg hck]
      simp [hcv, h1]

theorem foldl_gather_count (st : Stats) (ks : List String) (acc : Dict Item × Nat) :
    (ks.foldl (fun (acc : Dict Item × Nat) varName =>
      if isEliminateable st varName then
        (dset acc.1 varName ((dget st.initialValue varName).getD .null), acc.2 + 1)
      else acc) acc).2 = acc.2 + (ks.filter (fun v => isEliminateable st v)).length := by
  induction ks generalizing acc with
  | nil => simp
  | cons k rest ih =>
    simp only [List.foldl_cons, List.filter_cons]
    by_cases hk : isEliminateable st k = true
    · simp only [hk, if_true]
      rw [ih]
      simp
      omega
    · simp only [hk, if_false]
      rw [ih]
      simp [hk]

/-- Claim C1 (code_bug witness computation): on the function body
`var i = 0; i++;` the optimizer eliminates `i` (it reports one elimination)
and rewrites the body to an increment of the literal `0`, so the optimized
function does not preserve the behaviour of the original (the spec claims
identical return values and side effects for every input). -/
theorem claim_C1 :
    run exBodyIncr =
      ([.arr [.str "toplevel", .arr []],
        .arr [.str "stat", .arr [.str "unary-postfix", .str "++", .arr [.str "num", .num 0]]]],
       1) := by
  rw [← runF_eq]
  rfl

/-- Claim C3 (confirmed): `optimize_function` returns exactly the number of
table entries satisfying `isEliminateable`, and `isEliminateable` holds iff
the binding is single-def with a pure initializer and is either unused, or
used at most `MAX_USES` times with `depsMutatedInLiveRange` unset. -/
theorem claim_C3 (body : List Item) :
    (run body).2 =
      ((dkeys (analyzeAll body).isSingleDef).filter
        (fun v => isEliminateable (analyzeAll body) v)).length
    ∧ ∀ st v, isEliminateable st v = true ↔
        (dtruthy st.isSingleDef v = true ∧ dtruthy st.usesOnlySimpleNodes v = true ∧
         ((dget st.useCount v).getD 0 = 0 ∨
          ((dget st.useCount v).getD 0 ≤ MAX_USES ∧
           dtruthy st.depsMutatedInLiveRange v = false))) := by
  constructor
  · have h1 : (run body).2 = (gatherEliminated (analyzeAll body)).2 := rfl
    rw [h1]
    unfold gatherEliminated
    rw [foldl_gather_count]
    simp
  · intro st v
    unfold isEliminateable MAX_USES
    by_cases h1 : dtruthy st.isSingleDef v = true
    · by_cases h2 : dtruthy st.usesOnlySimpleNodes v = true
      · simp only [h1, h2, Bool.and_self, if_true, true_and]
        cases hn : (dget st.useCount v).getD 0 with
        | zero => simp
        | succ m =>
          cases m with
          | zero =>
            by_cases h3 : dtruthy st.depsMutatedInLiveRange v = true <;> simp [h3]
          | succ m2 =>
            constructor
            · intro hfalse
              simp at hfalse
            · intro hor
              rcases hor with h0 | ⟨hle, hflag⟩
              · omega
              · omega
      · simp [h1, h2]
    · simp [h1]

/-- Claim C4 (confirmed): at every loop node (`do`, `while`, `for`,
`for-in`) the live set is emptied before the children are walked and emptied
again after the node, so no binding live before the loop is live inside it
(the result does not depend on the incoming live set) and no binding live
inside survives the loop. -/
theorem claim_C4 (ls : LiveState) (ty : String) (rest : List Item)
    (h : ty = "do" ∨ ty = "while" ∨ ty = "for" ∨ ty = "for-in") :
    analyzeTraverse ls (.arr (.str ty :: rest)) =
      { traverseChildList { ls with isLive := [] } (.str ty :: rest) with isLive := [] } := by
  rcases h with h | h | h | h <;> subst h <;>
    rw [analyzeTraverse] <;> simp [headType, analyzeBlock, ANALYZE_BLOCK_TYPES]

/-- Witness for claim C4 at a concrete `while` node with a nonempty incoming
live set. -/
theorem claim_C4_witness :
    analyzeTraverse exLiveState (.arr (.str "while" :: [exThrowNode])) =
      { traverseChildList { exLiveState with isLive := [] } (.str "while" :: [exThrowNode]) with
          isLive := [] } :=
  claim_C4 exLiveState "while" [exThrowNode] (Or.inr (Or.inl rfl))

/-- Claim C6 (code_bug witness computation): in `var i = 0; i++;` the binding
`i` is the operand of an increment, yet after the basic variable scan it is
still recorded as single-def, it passes `isEliminateable`, and the claim that
such a binding is never eliminated fails (see `claim_C1` for the rewritten
body). -/
theorem claim_C6 :
    dget (calculateBasicVarStats initialStats exBodyIncr).isSingleDef "i" = some true
    ∧ isEliminateable (analyzeAll exBodyIncr) "i" = true := by
  constructor
  · rfl
  · rw [← analyzeAllF_eq]
    rfl

/-- Claim C8 (code_bug witness computation): an observer that returns the
stop signal `false` at the very first node does not stop `traverse`: the
second node of `throw a;` is still visited (the counter reaches 2) and the
traversal reports `undefined` rather than `false`. -/
theorem claim_C8 :
    traverse stopCountCb 0 exThrowNode = (2, exThrowNode, TravRes.undef) := rfl

/-- Claim C9 counterexample: on `x + 1 + y` the optimizer builds
`y + (x + 1)` (names as left operands, outermost-last), not the tree
`((1) + x) + y` written in the spec. -/
theorem claim_C9_counterexample :
    exprRun (.arr [.str "stat", .arr exChain]) = .arr [.str "stat", exMirror]
    ∧ ¬(exMirror = specRebuildChain ["x", "y"] 1) :=
  ⟨rfl, by simp [exMirror, specRebuildChain]⟩



/-- Claim C2 (corrected): for a control-flow node (`new`, `throw`, `call`,
`label`, `debugger`) the live-range analyzer kills exactly the live bindings
that depend on a global or are absent from `usedInThisStatement`; but that set
is only populated for `assign` and `call` nodes (from `node.slice(2, 4)`), so
for every control-flow kind other than `call` it is empty and every live
binding is killed, referenced inside the node or not. -/
theorem claim_C2 (ls : LiveState) (node : List Item) (ty v : String)
    (hty : ty = "new" ∨ ty = "throw" ∨ ty = "call" ∨ ty = "label" ∨ ty = "debugger") :
    dget (checkForMutations ls node ty).isLive v =
      (if v ∈ dkeys ls.isLive ∧
          (dtruthy ls.st.dependsOnAGlobal v = true ∨ ¬(dtruthy (usedInStatement node ty) v = true))
        then some false else dget ls.isLive v)
    ∧ (¬(ty = "call") → usedInStatement node ty = []) := by
  rcases hty with h | h | h | h | h <;> subst h <;>
    refine ⟨?_, ?_⟩ <;>
    first
      | (intro hc; exact absurd rfl hc)
      | (intro hc; simp [usedInStatement])
      | (unfold checkForMutations
         norm_num [CONTROL_FLOW_NODES]
         rw [dget_foldl_kill_prop]
         simp +decide)

/-- Counterexample to the literal reading of claim C2: in `throw x;` the name
`x` appears syntactically inside the node and has no global dependency, yet
its live binding is killed, because `usedInThisStatement` is never collected
for a `throw` node. -/
theorem claim_C2_counterexample :
    "x" ∈ syntacticNames (.arr [.str "throw", .arr [.str "name", .str "x"]])
    ∧ dtruthy initialStats.dependsOnAGlobal "x" = false
    ∧ dget (checkForMutations ⟨[("x", true)], initialStats⟩
        [.str "throw", .arr [.str "name", .str "x"]] "throw").isLive "x" = some false := by
  refine ⟨by decide, rfl, rfl⟩

/-- Witness for claim C2 at a concrete `call` node whose argument references
the live binding `x`: the binding survives. -/
theorem claim_C2_witness :
    dget (checkForMutations ⟨[("x", true)], initialStats⟩
        [.str "call", .arr [.str "name", .str "f"], .arr [.arr [.str "name", .str "x"]]]
        "call").isLive "x" = some true := by
  have h := claim_C2 ⟨[("x", true)], initialStats⟩
    [.str "call", .arr [.str "name", .str "f"], .arr [.arr [.str "name", .str "x"]]]
    "call" "x" (Or.inr (Or.inr (Or.inl rfl)))
  rw [h.1]
  decide

/-- Claim C9 (corrected): when the gather over a `binary +` node succeeds with
at least one numeric literal, `fold_additions` replaces the node by
`rebuildChain names num`, in which the summed constant sits innermost but as
the RIGHT operand of the innermost `+` and the names are LEFT operands in
encounter order (the mirror image of the tree written in the spec); when the
gather fails or finds no literal, the callback returns `undefined` and the
node is left unchanged. -/
theorem claim_C9 (rest : List Item)
    (hfail : (gatherChain (.str "binary" :: .str "+" :: rest)).fail = false)
    (hnum : (gatherChain (.str "binary" :: .str "+" :: rest)).hasNum = true) :
    exprRun (.arr [.str "stat", .arr (.str "binary" :: .str "+" :: rest)]) =
      .arr [.str "stat",
        rebuildChain (gatherChain (.str "binary" :: .str "+" :: rest)).names
          (gatherChain (.str "binary" :: .str "+" :: rest)).num]
    ∧ ∀ (u : Unit) (l2 : List Item) (ty : String),
        ((gatherChain l2).fail = true ∨ (gatherChain l2).hasNum = false) →
        (exprCb u l2 ty).2 = CbRes.undef := by
  constructor
  · unfold exprRun
    simp [traverse.eq_def, travList.eq_def, headType, isRecursable, skipForIn, exprCb,
      jsEqStr, hfail, hnum]
  · intro u l2 ty h
    unfold exprCb
    by_cases hb : ty = "binary" ∧ jsEqStr (l2.get? 1) "+" = true
    · rcases h with h | h <;> simp [hb, h]
    · simp only [Bool.and_eq_true, beq_iff_eq]
      rw [if_neg hb]

/-- Witness for claim C9 on the chain `(x + 1) + y`, whose gather succeeds
with the literal 1. -/
theorem claim_C9_witness :
    (gatherChain [.str "binary", .str "+",
        .arr [.str "binary", .str "+", .arr [.str "name", .str "x"], .arr [.str "num", .num 1]],
        .arr [.str "name", .str "y"]]).fail = false
    ∧ (gatherChain [.str "binary", .str "+",
        .arr [.str "binary", .str "+", .arr [.str "name", .str "x"], .arr [.str "num", .num 1]],
        .arr [.str "name", .str "y"]]).hasNum = true
    ∧ exprRun (.arr [.str "stat", .arr [.str "binary", .str "+",
        .arr [.str "binary", .str "+", .arr [.str "name", .str "x"], .arr [.str "num", .num 1]],
        .arr [.str "name", .str "y"]]]) =
      .arr [.str "stat",
        rebuildChain (gatherChain [.str "binary", .str "+",
          .arr [.str "binary", .str "+", .arr [.str "name", .str "x"], .arr [.str "num", .num 1]],
          .arr [.str "name", .str "y"]]).names
        (gatherChain [.str "binary", .str "+",
          .arr [.str "binary", .str "+", .arr [.str "name", .str "x"], .arr [.str "num", .num 1]],
          .arr [.str "name", .str "y"]]).num] :=
  ⟨rfl, rfl,
   (claim_C9
      [.arr [.str "binary", .str "+", .arr [.str "name", .str "x"], .arr [.str "num", .num 1]],
       .arr [.str "name", .str "y"]] rfl rfl).1⟩

/-- Claim C10 (confirmed): an `assign` whose left-hand side is a subscript
`a[...] = v` does not clear the single-def status of the base binding `a` in
the basic scan (the written key is the comma-joined `sub` child, never a plain
identifier), while `checkForMutations` walks the left-hand side down to the
base name `a` and kills every live binding recorded in `affects[a]`. -/
theorem claim_C10 (st : Stats) (ls : LiveState) (n0 n1 : Item) (tail srest : List Item)
    (a v : String) (aff : Dict Bool)
    (haff : dget ls.st.affects a = some aff)
    (hdep : dtruthy aff v = true)
    (hlive : dtruthy ls.isLive v = true) :
    dget (basicCb st
        (n0 :: n1 :: Item.arr (.str "sub" :: .arr [.str "name", .str a] :: srest) :: tail)
        "assign").1.isSingleDef a =
      dget st.isSingleDef a
    ∧ dget (checkForMutations ls
        (n0 :: n1 :: Item.arr (.str "sub" :: .arr [.str "name", .str a] :: srest) :: tail)
        "assign").isLive v = some false := by
  have hkne : ¬("name," ++ a = a) := by
    intro h
    have h2 := congrArg String.length h
    simp [String.length_append] at h2
    have h5 : ("name,").length = 5 := rfl
    omega
  constructor
  · unfold basicCb
    norm_num [jsKeyOpt, jsKey, Item.idx, joinList, joinElem]
    by_cases hsd : dtruthy st.isSingleDef ("name," ++ a) = true
    · simp [hsd, dget_dset_ne _ _ _ _ hkne]
    · simp [hsd]
  · have hmem : v ∈ dkeys aff := dget_some_mem_dkeys (dtruthy_iff.mp hdep)
    have hkill : dget (killAffected aff ls.isLive) v = some false := by
      rw [dget_killAffected]
      simp [hmem, hlive]
    unfold checkForMutations
    norm_num [baseName, jsKeyOpt, jsKey, haff, CONTROL_FLOW_NODES]
    simp [dget_foldl_kill_prop, hkill]

/-- Witness for claim C10 on `a[0] = v` with `affects[a] = {x}` and `x` live. -/
theorem claim_C10_witness :
    dget (basicCb initialStats
        [.str "assign", .bool true,
         Item.arr [.str "sub", .arr [.str "name", .str "a"], .arr [.str "num", .num 0]]]
        "assign").1.isSingleDef "a" = dget initialStats.isSingleDef "a"
    ∧ dget (checkForMutations
        ⟨[("x", true)], { initialStats with affects := [("a", [("x", true)])] }⟩
        [.str "assign", .bool true,
         Item.arr [.str "sub", .arr [.str "name", .str "a"], .arr [.str "num", .num 0]]]
        "assign").isLive "x" = some false :=
  claim_C10 initialStats
    ⟨[("x", true)], { initialStats with affects := [("a", [("x", true)])] }⟩
    (.str "assign") (.bool true) [] [.arr [.str "num", .num 0]] "a" "x" [("x", true)]
    rfl rfl rfl

theorem collapseStep_eq (V : Dict Item) (inc : Bool) (k : String) :
    collapseStep (V, inc) k =
      (dset V k (finOf (traverse (collapseCb V k) inc ((dget V k).getD .null))),
       (traverse (collapseCb V k) inc ((dget V k).getD .null)).1) := rfl

theorem collapseLoop_succ (fuel : Nat) (V : Dict Item) :
    collapseLoop (fuel + 1) V =
      (if ((dkeys V).foldl collapseStep (V, false)).2 then
        collapseLoop fuel ((dkeys V).foldl collapseStep (V, false)).1
      else (((dkeys V).foldl collapseStep (V, false)).1, true)) := rfl

theorem dhas_dget_exists {α : Type} {d : Dict α} {k : String} (h : dhas d k = true) :
    ∃ v, dget d k = some v := by
  induction d with
  | nil => simp [dhas] at h
  | cons p rest ih =>
    by_cases hp : p.1 = k
    · exact ⟨p.2, by simp [dget, hp]⟩
    · simp [dhas, hp] at h
      simpa [dget, hp] using ih h

theorem dget_mem {α : Type} {d : Dict α} {k : String} {v : α} (h : dget d k = some v) :
    (k, v) ∈ d := by
  induction d with
  | nil => simp [dget] at h
  | cons p rest ih =>
    by_cases hp : p.1 = k
    · simp [dget, hp] at h
      have hp2 : p = (k, v) := by
        cases p
        simp_all
      rw [← hp2]
      exact List.mem_cons_self p rest
    · simp [dget, hp] at h
      exact List.mem_cons_of_mem _ (ih h)

theorem dhas_map_set {α : Type} (d : Dict α) (k : String) (v : α) (x : String) :
    dhas (d.map (fun p => if p.1 = k then (k, v) else p)) x = dhas d x := by
  induction d with
  | nil => rfl
  | cons p rest ih =>
    by_cases hp : p.1 = k
    · simp [dhas, hp, ih]
    · simp [dhas, hp, ih]

theorem dhas_dset_of_has {α : Type} {d : Dict α} {k : String} (v : α)
    (h : dhas d k = true) : ∀ x, dhas (dset d k v) x = dhas d x := by
  intro x
  simp [dset, h, dhas_map_set]

theorem mem_dkeys_dhas {α : Type} {d : Dict α} {k : String} (h : k ∈ dkeys d) :
    dhas d k = true := by
  induction d with
  | nil => simp [dkeys] at h
  | cons p rest ih =>
    simp [dkeys] at h
    rcases h with h | h
    · simp [dhas, h]
    · by_cases hp : p.1 = k
      · simp [dhas, hp]
      · simp [dhas, hp]
        exact ih (by simpa [dkeys] using h)

theorem headType_head {l : List Item} {a : String} (h : headType l = some a) :
    l.head? = some (.str a) := by
  cases l with
  | nil => simp [headType] at h
  | cons x r =>
    cases x <;> simp [headType] at h <;> simp [h]

theorem head_headType {l : List Item} {a : String} (h : l.head? = some (.str a)) :
    headType l = some a := by
  cases l with
  | nil => simp at h
  | cons x r =>
    simp at h
    rw [h]
    simp [headType]

theorem wfNameShape_shape {l : List Item} (h : wfNameShape l = true) :
    ∃ a x, l = [a, .str x] := by
  match l, h with
  | [a, .str x], _ => exact ⟨a, x, rfl⟩




theorem collapse_main (V : Dict Item) (w : String)
    (hVwf : ∀ a v, dget V a = some v → wfTree v = true) : ∀ n : Nat,
    (∀ (it : Item) (inc : Bool), itemSize it ≤ n → wfTree it = true →
      (∀ s, s ∈ refNames it → dhas V s = true → ¬(s = w)) →
      ((traverse (collapseCb V w) inc it).2.2 ≠ TravRes.fls
       ∧ wfTree (finOf (traverse (collapseCb V w) inc it)) = true
       ∧ (∀ t, t ∈ refNames (finOf (traverse (collapseCb V w) inc it)) → dhas V t = true →
           ∃ s, s ∈ refNames it ∧ dhas V s = true ∧ t ∈ refNames ((dget V s).getD .null))
       ∧ ((∀ s, s ∈ refNames it → dhas V s = false) →
           (traverse (collapseCb V w) inc it).1 = inc)
       ∧ ((traverse (collapseCb V w) inc it).1 = false → inc = false ∧
           (∀ t, t ∈ refNames (finOf (traverse (collapseCb V w) inc it)) → dhas V t = true →
             t = w))
       ∧ (∀ rr, (traverse (collapseCb V w) inc it).2.2 = TravRes.repl rr →
           (traverse (collapseCb V w) inc it).1 = true)))
    ∧ (∀ (l : List Item) (ty : Option String) (inc : Bool), itemListSize l ≤ n →
      ¬(ty = some "for-in") → wfTreeList l = true →
      (∀ s, s ∈ refNamesList l → dhas V s = true → ¬(s = w)) →
      ((travList (collapseCb V w) ty inc l).2.2 = false
       ∧ wfTreeList (travList (collapseCb V w) ty inc l).2.1 = true
       ∧ (∀ a, l.head? = some (Item.str a) →
           (travList (collapseCb V w) ty inc l).2.1.head? = some (Item.str a))
       ∧ (∀ t, t ∈ refNamesList (travList (collapseCb V w) ty inc l).2.1 → dhas V t = true →
           ∃ s, s ∈ refNamesList l ∧ dhas V s = true ∧ t ∈ refNames ((dget V s).getD .null))
       ∧ ((∀ s, s ∈ refNamesList l → dhas V s = false) →
           (travList (collapseCb V w) ty inc l).1 = inc)
       ∧ ((travList (collapseCb V w) ty inc l).1 = false → inc = false ∧
           (∀ t, t ∈ refNamesList (travList (collapseCb V w) ty inc l).2.1 → dhas V t = true →
             t = w)))) := by
  intro n
  induction n with
  | zero =>
    constructor
    · intro it inc hsz
      have := itemSize_pos it
      omega
    · intro l ty inc hsz
      have := itemListSize_pos l
      omega
  | succ n ihn =>
    obtain ⟨ihT, ihL⟩ := ihn
    constructor
    · intro it inc hsz hwf hself
      cases it with
      | str s => refine ⟨?_, ?_, ?_, ?_, ?_, ?_⟩ <;> simp [traverse.eq_def, finOf, refNames, hwf]
      | num m => refine ⟨?_, ?_, ?_, ?_, ?_, ?_⟩ <;> simp [traverse.eq_def, finOf, refNames, hwf]
      | bool b => refine ⟨?_, ?_, ?_, ?_, ?_, ?_⟩ <;> simp [traverse.eq_def, finOf, refNames, hwf]
      | null => refine ⟨?_, ?_, ?_, ?_, ?_, ?_⟩ <;> simp [traverse.eq_def, finOf, refNames, hwf]
      | arr l =>
        rw [wfTree] at hwf
        cases hh : headType l with
        | none => rw [hh] at hwf; simp at hwf
        | some ty =>
          rw [hh] at hwf
          by_cases hn : ty = "name"
          · subst hn
            simp only [if_pos rfl, beq_self_eq_true, if_true] at hwf
            obtain ⟨a, x, rfl⟩ := wfNameShape_shape hwf
            have ha : a = Item.str "name" := by
              cases a <;> simp [headType] at hh
              rw [hh]
            subst ha
            have hrefs : refNames (Item.arr [Item.str "name", Item.str x]) = [x] := by
              simp [refNames, refNamesList, headRef, headType, jsKeyOpt, jsKey]
            by_cases hx : dhas V x = true
            · have hxw : ¬(x = w) := hself x (by rw [hrefs]; simp) hx
              have hcb : collapseCb V w inc [Item.str "name", Item.str x] "name"
                  = (true, .repl ((dget V x).getD .null)) := by
                simp [collapseCb, jsKeyOpt, jsKey, hx, hxw]
              have htr : traverse (collapseCb V w) inc (.arr [Item.str "name", Item.str x])
                  = (true, .arr [Item.str "name", Item.str x],
                     .repl ((dget V x).getD .null)) := by
                rw [traverse.eq_def]
                simp only [headType, hcb]
              obtain ⟨v0, hv0⟩ := dhas_dget_exists hx
              rw [htr]
              refine ⟨by simp, ?_, ?_, ?_, ?_, ?_⟩
              · simp only [finOf, hv0]
                simpa [hv0] using hVwf x v0 hv0
              · intro t ht hdt
                refine ⟨x, by rw [hrefs]; simp, hx, ?_⟩
                simpa [finOf] using ht
              · intro hcl
                exact absurd hx (by simpa using hcl x (by rw [hrefs]; simp))
              · intro hfalse
                simp at hfalse
              · intro rr _
                rfl
            · have hx2 : dhas V x = false := by
                cases hdx : dhas V x
                · rfl
                · exact absurd hdx hx
              have hcb : collapseCb V w inc [Item.str "name", Item.str x] "name"
                  = (inc, CbRes.undef) := by
                simp [collapseCb, jsKeyOpt, jsKey, hx2]
              have htl : travList (collapseCb V w) (some "name") inc
                  [Item.str "name", Item.str x]
                  = (inc, [Item.str "name", Item.str x], false) := by
                rw [travList.eq_def]
                simp only [isRecursable, skipForIn, Bool.false_and, Bool.and_false]
                rw [travList.eq_def]
                simp only [isRecursable, skipForIn, Bool.false_and, Bool.and_false]
                rw [travList.eq_def]
                simp
              have htr : traverse (collapseCb V w) inc (.arr [Item.str "name", Item.str x])
                  = (inc, .arr [Item.str "name", Item.str x], TravRes.undef) := by
                rw [traverse.eq_def]
                simp only [headType, hcb, htl]
                simp
              rw [htr]
              refine ⟨by simp, ?_, ?_, ?_, ?_, ?_⟩
              · simp only [finOf]
                rw [wfTree]
                simp [headType, hwf]
              · intro t ht hdt
                rw [show finOf (inc, Item.arr [Item.str "name", Item.str x], TravRes.undef)
                    = Item.arr [Item.str "name", Item.str x] from rfl, hrefs] at ht
                simp at ht
                rw [ht] at hdt
                rw [hdt] at hx2
                simp at hx2
              · intro _
                rfl
              · intro hfalse
                refine ⟨hfalse, ?_⟩
                intro t ht hdt
                rw [show finOf (inc, Item.arr [Item.str "name", Item.str x], TravRes.undef)
                    = Item.arr [Item.str "name", Item.str x] from rfl, hrefs] at ht
                simp at ht
                rw [ht] at hdt
                rw [hdt] at hx2
                simp at hx2
              · intro rr hrr
                simp at hrr
          · have hn2 : (ty == "name") = false := by
              simp [hn]
            simp only [hn2, Bool.false_eq_true, if_false, Bool.and_eq_true,
              bne_iff_ne, ne_eq] at hwf
            obtain ⟨hf, hwl⟩ := hwf
            have hcb : collapseCb V w inc l ty = (inc, CbRes.undef) := by
              simp [collapseCb, hn]
            have hrefs : refNames (Item.arr l) = refNamesList l := by
              simp [refNames, headRef, hh, hn2]
            have hszl : itemListSize l ≤ n := by
              simp [itemSize] at hsz
              omega
            have hL := ihL l (some ty) inc hszl (by simp [hf]) hwl
              (by rw [hrefs] at hself; exact hself)
            rcases htl : travList (collapseCb V w) (some ty) inc l with ⟨s2, l2, stopped⟩
            rw [htl] at hL
            obtain ⟨hB1, hB2, hB3, hB4, hB5, hB6⟩ := hL
            simp only at hB1 hB2 hB3 hB4 hB5 hB6
            subst hB1
            have htr : traverse (collapseCb V w) inc (.arr l)
                = (s2, .arr l2, TravRes.undef) := by
              rw [traverse.eq_def]
              simp only [hh, hcb, htl]
              simp
            rw [htr]
            have hhead : headType l2 = some ty := by
              exact head_headType (hB3 ty (headType_head hh))
            have hfin : finOf (s2, Item.arr l2, TravRes.undef) = Item.arr l2 := rfl
            have hrefs2 : refNames (Item.arr l2) = refNamesList l2 := by
              simp [refNames, headRef, hhead, hn2]
            refine ⟨by simp, ?_, ?_, ?_, ?_, ?_⟩
            · rw [hfin, wfTree, hhead]
              simp only [hn2, if_false]
              simp [hf, hB2]
            · intro t ht hdt
              rw [hfin, hrefs2] at ht
              obtain ⟨s, hs1, hs2, hs3⟩ := hB4 t ht hdt
              exact ⟨s, by rw [hrefs]; exact hs1, hs2, hs3⟩
            · intro hcl
              rw [hrefs] at hcl
              exact hB5 hcl
            · intro hfalse
              obtain ⟨hi, hcls⟩ := hB6 hfalse
              refine ⟨hi, ?_⟩
              intro t ht hdt
              rw [hfin, hrefs2] at ht
              exact hcls t ht hdt
            · intro rr hrr
              simp at hrr
    · intro l ty inc hsz hty hwl hself
      cases l with
      | nil =>
        refine ⟨?_, ?_, ?_, ?_, ?_, ?_⟩ <;> simp [travList.eq_def, wfTreeList, refNamesList]
      | cons child restl =>
        rw [wfTreeList] at hwl
        simp only [Bool.and_eq_true] at hwl
        obtain ⟨hwc, hwr⟩ := hwl
        have hrefs : refNamesList (child :: restl)
            = refNames child ++ refNamesList restl := rfl
        have hszc : itemSize child ≤ n := by
          have h1 := itemListSize_pos restl
          simp [itemListSize] at hsz
          omega
        have hszr : itemListSize restl ≤ n := by
          have h1 := itemSize_pos child
          simp [itemListSize] at hsz
          omega
        have hselfc : ∀ s, s ∈ refNames child → dhas V s = true → ¬(s = w) := by
          intro s hs
          exact hself s (by rw [hrefs]; exact List.mem_append_left _ hs)
        have hselfr : ∀ s, s ∈ refNamesList restl → dhas V s = true → ¬(s = w) := by
          intro s hs
          exact hself s (by rw [hrefs]; exact List.mem_append_right _ hs)
        have hskip : skipForIn ty child = false := by
          simp [skipForIn]
          intro hc
          exact absurd hc hty
        by_cases hrec : isRecursable child = true
        · have hT := ihT child inc hszc hwc hselfc
          rcases htc : traverse (collapseCb V w) inc child with ⟨s1, child1, res⟩
          rw [htc] at hT
          obtain ⟨hA1, hA2, hA3, hA4, hA5, hA6⟩ := hT
          simp only at hA1 hA2 hA3 hA4 hA5 hA6
          have hchstr : ∀ a : String, ¬(child = Item.str a) := by
            intro a hc
            rw [hc] at hrec
            simp [isRecursable] at hrec
          cases res with
          | fls => exact absurd rfl hA1
          | repl rr =>
            have hL := ihL restl ty s1 hszr hty hwr hselfr
            rcases htr : travList (collapseCb V w) ty s1 restl with ⟨sr, rest2, stopped⟩
            rw [htr] at hL
            obtain ⟨hB1, hB2, hB3, hB4, hB5, hB6⟩ := hL
            simp only at hB1 hB2 hB3 hB4 hB5 hB6
            subst hB1
            have hfc : finOf (s1, child1, TravRes.repl rr) = rr := rfl
            rw [hfc] at hA2 hA3 hA5
            have hstep : travList (collapseCb V w) ty inc (child :: restl)
                = (sr, rr :: rest2, false) := by
              rw [travList.eq_def]
              simp only [hrec, hskip, Bool.not_false, Bool.and_true, if_true, htc, htr]
              all_goals simp
            rw [hstep]
            refine ⟨rfl, ?_, ?_, ?_, ?_, ?_⟩
            · rw [wfTreeList]
              simp [hA2, hB2]
            · intro a hha
              exact absurd (by simpa using hha) (hchstr a)
            · intro t ht hdt
              simp only [refNamesList] at ht
              rcases List.mem_append.mp ht with h | h
              · obtain ⟨s, hs1, hs2, hs3⟩ := hA3 t h hdt
                exact ⟨s, by rw [hrefs]; exact List.mem_append_left _ hs1, hs2, hs3⟩
              · obtain ⟨s, hs1, hs2, hs3⟩ := hB4 t h hdt
                exact ⟨s, by rw [hrefs]; exact List.mem_append_right _ hs1, hs2, hs3⟩
            · intro hcl
              rw [hrefs] at hcl
              have hc1 : ∀ s, s ∈ refNames child → dhas V s = false :=
                fun s hs => hcl s (List.mem_append_left _ hs)
              have hc2 : ∀ s, s ∈ refNamesList restl → dhas V s = false :=
                fun s hs => hcl s (List.mem_append_right _ hs)
              rw [hB5 hc2, hA4 hc1]
            · intro hfalse
              obtain ⟨hi1, hcls1⟩ := hB6 hfalse
              have hs1true := hA6 rr rfl
              rw [hs1true] at hi1
              simp at hi1
          | undef =>
            have hL := ihL restl ty s1 hszr hty hwr hselfr
            rcases htr : travList (collapseCb V w) ty s1 restl with ⟨sr, rest2, stopped⟩
            rw [htr] at hL
            obtain ⟨hB1, hB2, hB3, hB4, hB5, hB6⟩ := hL
            simp only at hB1 hB2 hB3 hB4 hB5 hB6
            subst hB1
            have hfc : finOf (s1, child1, TravRes.undef) = child1 := rfl
            rw [hfc] at hA2 hA3 hA5
            have hstep : travList (collapseCb V w) ty inc (child :: restl)
                = (sr, child1 :: rest2, false) := by
              rw [travList.eq_def]
              simp only [hrec, hskip, Bool.not_false, Bool.and_true, if_true, htc, htr]
              all_goals simp
            rw [hstep]
            refine ⟨rfl, ?_, ?_, ?_, ?_, ?_⟩
            · rw [wfTreeList]
              simp [hA2, hB2]
            · intro a hha
              exact absurd (by simpa using hha) (hchstr a)
            · intro t ht hdt
              simp only [refNamesList] at ht
              rcases List.mem_append.mp ht with h | h
              · obtain ⟨s, hs1, hs2, hs3⟩ := hA3 t h hdt
                exact ⟨s, by rw [hrefs]; exact List.mem_append_left _ hs1, hs2, hs3⟩
              · obtain ⟨s, hs1, hs2, hs3⟩ := hB4 t h hdt
                exact ⟨s, by rw [hrefs]; exact List.mem_append_right _ hs1, hs2, hs3⟩
            · intro hcl
              rw [hrefs] at hcl
              have hc1 : ∀ s, s ∈ refNames child → dhas V s = false :=
                fun s hs => hcl s (List.mem_append_left _ hs)
              have hc2 : ∀ s, s ∈ refNamesList restl → dhas V s = false :=
                fun s hs => hcl s (List.mem_append_right _ hs)
              rw [hB5 hc2, hA4 hc1]
            · intro hfalse
              obtain ⟨hi1, hcls1⟩ := hB6 hfalse
              obtain ⟨hi2, hcls2⟩ := hA5 hi1
              refine ⟨hi2, ?_⟩
              intro t ht hdt
              simp only [refNamesList] at ht
              rcases List.mem_append.mp ht with h | h
              · exact hcls2 t h hdt
              · exact hcls1 t h hdt
        · have hrecf : isRecursable child = false := by
            cases hr : isRecursable child
            · rfl
            · exact absurd hr hrec
          have hrchild : refNames child = [] := by
            cases child with
            | arr l' =>
              cases l' with
              | nil => simp [refNames, refNamesList, headRef, headType]
              | cons a b => simp [isRecursable] at hrecf
            | str s => rfl
            | num m => rfl
            | bool b => rfl
            | null => rfl
          have hL := ihL restl ty inc hszr hty hwr hselfr
          rcases htr : travList (collapseCb V w) ty inc restl with ⟨sr, rest2, stopped⟩
          rw [htr] at hL
          obtain ⟨hB1, hB2, hB3, hB4, hB5, hB6⟩ := hL
          simp only at hB1 hB2 hB3 hB4 hB5 hB6
          subst hB1
          have hstep : travList (collapseCb V w) ty inc (child :: restl)
              = (sr, child :: rest2, false) := by
            rw [travList.eq_def]
            simp only [hrecf, Bool.false_and, if_false, htr]
            all_goals simp
          rw [hstep]
          refine ⟨rfl, ?_, ?_, ?_, ?_, ?_⟩
          · rw [wfTreeList]
            simp [hwc, hB2]
          · intro a hha
            simpa using hha
          · intro t ht hdt
            simp only [refNamesList] at ht
            rcases List.mem_append.mp ht with h | h
            · rw [hrchild] at h
              simp at h
            · obtain ⟨s, hs1, hs2, hs3⟩ := hB4 t h hdt
              exact ⟨s, by rw [hrefs]; exact List.mem_append_right _ hs1, hs2, hs3⟩
          · intro hcl
            rw [hrefs] at hcl
            exact hB5 (fun s hs => hcl s (List.mem_append_right _ hs))
          · intro hfalse
            obtain ⟨hi, hcls⟩ := hB6 hfalse
            refine ⟨hi, ?_⟩
            intro t ht hdt
            simp only [refNamesList] at ht
            rcases List.mem_append.mp ht with h | h
            · rw [hrchild] at h
              simp at h
            · exact hcls t h hdt




theorem collapseStep_props (r : String → Nat) (j : Nat) (V : Dict Item) (inc : Bool)
    (k : String)
    (hk : dhas V k = true)
    (hwf : ∀ a v, dget V a = some v → wfTree v = true)
    (hacy : ∀ a v, dget V a = some v → ∀ s, s ∈ refNames v → dhas V s = true → r s < r a)
    (hcb : ∀ a v, dget V a = some v → r a < j → ∀ s, s ∈ refNames v → dhas V s = false) :
    (∀ x, dhas (collapseStep (V, inc) k).1 x = dhas V x)
    ∧ (∀ x, ¬(x = k) → dget (collapseStep (V, inc) k).1 x = dget V x)
    ∧ (∀ a v, dget (collapseStep (V, inc) k).1 a = some v → wfTree v = true)
    ∧ (∀ a v, dget (collapseStep (V, inc) k).1 a = some v → ∀ s, s ∈ refNames v →
        dhas V s = true → r s < r a)
    ∧ (∀ a v, dget (collapseStep (V, inc) k).1 a = some v → r a < j →
        ∀ s, s ∈ refNames v → dhas V s = false)
    ∧ (r k ≤ j → ∀ v, dget (collapseStep (V, inc) k).1 k = some v →
        ∀ s, s ∈ refNames v → dhas V s = false)
    ∧ ((∀ a v, dget V a = some v → ∀ s, s ∈ refNames v → dhas V s = false) →
        (collapseStep (V, inc) k).2 = inc
        ∧ (∀ a v, dget (collapseStep (V, inc) k).1 a = some v → ∀ s, s ∈ refNames v →
            dhas V s = false))
    ∧ ((collapseStep (V, inc) k).2 = false →
        inc = false ∧ (∀ v, dget (collapseStep (V, inc) k).1 k = some v →
          ∀ s, s ∈ refNames v → dhas V s = true → s = k)) := by
  obtain ⟨v0, hv0⟩ := dhas_dget_exists hk
  have hval : (dget V k).getD .null = v0 := by rw [hv0]; rfl
  have hself : ∀ s, s ∈ refNames v0 → dhas V s = true → ¬(s = k) := by
    intro s hs hds heq
    have := hacy k v0 hv0 s hs hds
    rw [heq] at this
    omega
  obtain ⟨hA1, hA2, hA3, hA4, hA5, hA6⟩ :=
    (collapse_main V k hwf (itemSize v0)).1 v0 inc (le_refl _) (hwf k v0 hv0) hself
  rw [collapseStep_eq, hval]
  set T := traverse (collapseCb V k) inc v0 with hT
  have hgetk : ∀ x, dget (dset V k (finOf T)) x =
      if k = x then some (finOf T) else dget V x := by
    intro x
    exact dget_dset V k x (finOf T)
  refine ⟨?_, ?_, ?_, ?_, ?_, ?_, ?_, ?_⟩
  · intro x
    exact dhas_dset_of_has (finOf T) hk x
  · intro x hx
    rw [hgetk x, if_neg (fun h => hx h.symm)]
  · intro a v hv
    rw [hgetk a] at hv
    by_cases hak : k = a
    · rw [if_pos hak] at hv
      injection hv with hv
      rw [← hv]
      exact hA2
    · rw [if_neg hak] at hv
      exact hwf a v hv
  · intro a v hv s hs hds
    rw [hgetk a] at hv
    by_cases hak : k = a
    · rw [if_pos hak] at hv
      injection hv with hv
      rw [← hv] at hs
      obtain ⟨s1, hs1a, hs1b, hs1c⟩ := hA3 s hs hds
      obtain ⟨vs1, hvs1⟩ := dhas_dget_exists hs1b
      have h1 : r s1 < r k := hacy k v0 hv0 s1 hs1a hs1b
      have h2 : r s < r s1 := by
        have := hacy s1 vs1 hvs1 s (by rw [hvs1] at hs1c; exact hs1c) hds
        exact this
      rw [← hak]
      omega
    · rw [if_neg hak] at hv
      exact hacy a v hv s hs hds
  · intro a v hv haj s hs
    rw [hgetk a] at hv
    by_cases hak : k = a
    · rw [if_pos hak] at hv
      injection hv with hv
      rw [← hv] at hs
      cases hds : dhas V s with
      | false => rfl
      | true =>
        obtain ⟨s1, hs1a, hs1b, hs1c⟩ := hA3 s hs hds
        obtain ⟨vs1, hvs1⟩ := dhas_dget_exists hs1b
        have h1 : r s1 < r k := hacy k v0 hv0 s1 hs1a hs1b
        have h2 : dhas V s = false := by
          refine hcb s1 vs1 hvs1 ?_ s (by rw [hvs1] at hs1c; exact hs1c)
          rw [hak] at h1
          omega
        rw [hds] at h2
        exact h2.symm ▸ rfl
    · rw [if_neg hak] at hv
      exact hcb a v hv haj s hs
  · intro hkj v hv s hs
    rw [hgetk k, if_pos rfl] at hv
    injection hv with hv
    rw [← hv] at hs
    cases hds : dhas V s with
    | false => rfl
    | true =>
      obtain ⟨s1, hs1a, hs1b, hs1c⟩ := hA3 s hs hds
      obtain ⟨vs1, hvs1⟩ := dhas_dget_exists hs1b
      have h1 : r s1 < r k := hacy k v0 hv0 s1 hs1a hs1b
      have h2 : dhas V s = false := by
        refine hcb s1 vs1 hvs1 (by omega) s (by rw [hvs1] at hs1c; exact hs1c)
      rw [hds] at h2
      exact h2.symm ▸ rfl
  · intro hallc
    have hc0 : ∀ s, s ∈ refNames v0 → dhas V s = false := hallc k v0 hv0
    refine ⟨hA4 hc0, ?_⟩
    intro a v hv s hs
    rw [hgetk a] at hv
    by_cases hak : k = a
    · rw [if_pos hak] at hv
      injection hv with hv
      rw [← hv] at hs
      cases hds : dhas V s with
      | false => rfl
      | true =>
        obtain ⟨s1, hs1a, hs1b, hs1c⟩ := hA3 s hs hds
        have := hc0 s1 hs1a
        rw [hs1b] at this
        simp at this
    · rw [if_neg hak] at hv
      exact hallc a v hv s hs
  · intro hfalse
    obtain ⟨hi, hcls⟩ := hA5 hfalse
    refine ⟨hi, ?_⟩
    intro v hv s hs hds
    rw [hgetk k, if_pos rfl] at hv
    injection hv with hv
    rw [← hv] at hs
    exact hcls s hs hds




theorem collapseFold_props (r : String → Nat) (j : Nat) : ∀ (ks : List String)
    (V : Dict Item) (inc : Bool),
    (∀ x ∈ ks, dhas V x = true) →
    (∀ a v, dget V a = some v → wfTree v = true) →
    (∀ a v, dget V a = some v → ∀ s, s ∈ refNames v → dhas V s = true → r s < r a) →
    (∀ a v, dget V a = some v → r a < j → ∀ s, s ∈ refNames v → dhas V s = false) →
    ((∀ x, dhas (ks.foldl collapseStep (V, inc)).1 x = dhas V x)
     ∧ (∀ x, ¬(x ∈ ks) → dget (ks.foldl collapseStep (V, inc)).1 x = dget V x)
     ∧ (∀ a v, dget (ks.foldl collapseStep (V, inc)).1 a = some v → wfTree v = true)
     ∧ (∀ a v, dget (ks.foldl collapseStep (V, inc)).1 a = some v → ∀ s, s ∈ refNames v →
         dhas V s = true → r s < r a)
     ∧ (∀ a v, dget (ks.foldl collapseStep (V, inc)).1 a = some v → r a < j →
         ∀ s, s ∈ refNames v → dhas V s = false)
     ∧ (∀ k, k ∈ ks → r k ≤ j → ∀ v, dget (ks.foldl collapseStep (V, inc)).1 k = some v →
         ∀ s, s ∈ refNames v → dhas V s = false)
     ∧ ((∀ a v, dget V a = some v → ∀ s, s ∈ refNames v → dhas V s = false) →
         (ks.foldl collapseStep (V, inc)).2 = inc
         ∧ (∀ a v, dget (ks.foldl collapseStep (V, inc)).1 a = some v →
             ∀ s, s ∈ refNames v → dhas V s = false))
     ∧ ((ks.foldl collapseStep (V, inc)).2 = false → inc = false ∧
         (∀ k, k ∈ ks → ∀ v, dget (ks.foldl collapseStep (V, inc)).1 k = some v →
           ∀ s, s ∈ refNames v → dhas V s = true → s = k))) := by
  intro ks
  induction ks with
  | nil =>
    intro V inc hks hwf hacy hcb
    refine ⟨fun x => rfl, fun x _ => rfl, hwf, hacy, hcb, ?_, ?_, ?_⟩
    · intro k hk
      simp at hk
    · intro h
      exact ⟨rfl, h⟩
    · intro h
      refine ⟨h, ?_⟩
      intro k hk
      simp at hk
  | cons k ks ih =>
    intro V inc hks hwf hacy hcb
    have hk : dhas V k = true := hks k (List.mem_cons_self k ks)
    obtain ⟨S1, S2, S3, S4, S5, S6, S7, S8⟩ := collapseStep_props r j V inc k hk hwf hacy hcb
    rw [List.foldl_cons]
    rcases hVi : collapseStep (V, inc) k with ⟨V2, inc2⟩
    rw [hVi] at S1 S2 S3 S4 S5 S6 S7 S8
    simp only at S1 S2 S3 S4 S5 S6 S7 S8
    have hks2 : ∀ x ∈ ks, dhas V2 x = true := by
      intro x hx
      rw [S1 x]
      exact hks x (List.mem_cons_of_mem _ hx)
    have hacy2 : ∀ a v, dget V2 a = some v → ∀ s, s ∈ refNames v →
        dhas V2 s = true → r s < r a := by
      intro a v hv s hs hds
      rw [S1 s] at hds
      exact S4 a v hv s hs hds
    have hcb2 : ∀ a v, dget V2 a = some v → r a < j → ∀ s, s ∈ refNames v →
        dhas V2 s = false := by
      intro a v hv haj s hs
      rw [S1 s]
      exact S5 a v hv haj s hs
    obtain ⟨I1, I2, I3, I4, I5, I6, I7, I8⟩ := ih V2 inc2 hks2 S3 hacy2 hcb2
    refine ⟨?_, ?_, I3, ?_, ?_, ?_, ?_, ?_⟩
    · intro x
      rw [I1 x, S1 x]
    · intro x hx
      have hxk : ¬(x = k) := fun h => hx (h ▸ List.mem_cons_self k ks)
      have hxks : ¬(x ∈ ks) := fun h => hx (List.mem_cons_of_mem _ h)
      rw [I2 x hxks, S2 x hxk]
    · intro a v hv s hs hds
      rw [← S1 s] at hds
      exact I4 a v hv s hs hds
    · intro a v hv haj s hs
      rw [← S1 s]
      exact I5 a v hv haj s hs
    · intro k0 hk0 hk0j v hv s hs
      rcases List.mem_cons.mp hk0 with heq | hmem
      · by_cases hmem2 : k0 ∈ ks
        · rw [← S1 s]
          exact I6 k0 hmem2 hk0j v hv s hs
        · rw [I2 k0 hmem2] at hv
          subst heq
          exact S6 hk0j v hv s hs
      · rw [← S1 s]
        exact I6 k0 hmem hk0j v hv s hs
    · intro hallc
      obtain ⟨h7a, h7b⟩ := S7 hallc
      have hallc2 : ∀ a v, dget V2 a = some v → ∀ s, s ∈ refNames v →
          dhas V2 s = false := by
        intro a v hv s hs
        rw [S1 s]
        exact h7b a v hv s hs
      obtain ⟨h8a, h8b⟩ := I7 hallc2
      refine ⟨by rw [h8a, h7a], ?_⟩
      intro a v hv s hs
      rw [← S1 s]
      exact h8b a v hv s hs
    · intro hfalse
      obtain ⟨hi2, hcls2⟩ := I8 hfalse
      obtain ⟨hi1, hcls1⟩ := S8 hi2
      refine ⟨hi1, ?_⟩
      intro k0 hk0 v hv s hs hds
      rcases List.mem_cons.mp hk0 with heq | hmem
      · by_cases hmem2 : k0 ∈ ks
        · rw [← S1 s] at hds
          exact hcls2 k0 hmem2 v hv s hs hds
        · rw [I2 k0 hmem2] at hv
          subst heq
          exact hcls1 v hv s hs hds
      · rw [← S1 s] at hds
        exact hcls2 k0 hmem v hv s hs hds




theorem dget_some_dhas {α : Type} {d : Dict α} {k : String} {v : α}
    (h : dget d k = some v) : dhas d k = true :=
  mem_dkeys_dhas (dget_some_mem_dkeys h)

theorem collapseLoop_props (r : String → Nat) : ∀ (m : Nat) (j : Nat) (V : Dict Item),
    (∀ a v, dget V a = some v → wfTree v = true) →
    (∀ a v, dget V a = some v → ∀ s, s ∈ refNames v → dhas V s = true → r s < r a) →
    (∀ a v, dget V a = some v → r a < j → ∀ s, s ∈ refNames v → dhas V s = false) →
    (∀ k, dhas V k = true → r k < j + m) →
    ((collapseLoop (m + 1) V).2 = true
     ∧ (∀ x, dhas (collapseLoop (m + 1) V).1 x = dhas V x)
     ∧ (∀ a v, dget (collapseLoop (m + 1) V).1 a = some v → ∀ s, s ∈ refNames v →
         dhas (collapseLoop (m + 1) V).1 s = true → s = a)) := by
  intro m
  induction m with
  | zero =>
    intro j V hwf hacy hcb hrank
    have hallc : ∀ a v, dget V a = some v → ∀ s, s ∈ refNames v → dhas V s = false := by
      intro a v hv s hs
      exact hcb a v hv (by simpa using hrank a (dget_some_dhas hv)) s hs
    obtain ⟨F1, F2, F3, F4, F5, F6, F7, F8⟩ :=
      collapseFold_props r j (dkeys V) V false (fun x hx => mem_dkeys_dhas hx) hwf hacy hcb
    obtain ⟨h7a, h7b⟩ := F7 hallc
    rcases hp : (dkeys V).foldl collapseStep (V, false) with ⟨V2, inc2⟩
    rw [hp] at F1 F2 F3 F4 F5 F6 h7a h7b
    simp only at F1 F2 F3 F4 F5 F6 h7a h7b
    subst h7a
    rw [collapseLoop_succ, hp]
    simp only [Bool.false_eq_true, if_false]
    refine ⟨by trivial, F1, ?_⟩
    intro a v hv s hs hds
    have := h7b a v hv s hs
    rw [F1 s] at hds
    rw [hds] at this
    simp at this
  | succ m ihm =>
    intro j V hwf hacy hcb hrank
    obtain ⟨F1, F2, F3, F4, F5, F6, F7, F8⟩ :=
      collapseFold_props r j (dkeys V) V false (fun x hx => mem_dkeys_dhas hx) hwf hacy hcb
    rcases hp : (dkeys V).foldl collapseStep (V, false) with ⟨V2, inc2⟩
    rw [hp] at F1 F2 F3 F4 F5 F6 F7 F8
    simp only at F1 F2 F3 F4 F5 F6 F7 F8
    rw [collapseLoop_succ, hp]
    cases hinc : inc2 with
    | false =>
      simp only [Bool.false_eq_true, if_false]
      obtain ⟨_, hcls⟩ := F8 hinc
      refine ⟨by trivial, F1, ?_⟩
      intro a v hv s hs hds
      have hda : dhas V a = true := by
        rw [← F1 a]
        exact dget_some_dhas hv
      rw [F1 s] at hds
      refine (hcls a ?_ v hv s hs hds).symm ▸ rfl
      obtain ⟨va, hva⟩ := dhas_dget_exists hda
      exact dget_some_mem_dkeys hva
    | true =>
      simp only [if_true]
      have hacy2 : ∀ a v, dget V2 a = some v → ∀ s, s ∈ refNames v →
          dhas V2 s = true → r s < r a := by
        intro a v hv s hs hds
        rw [F1 s] at hds
        exact F4 a v hv s hs hds
      have hcb2 : ∀ a v, dget V2 a = some v → r a < j + 1 → ∀ s, s ∈ refNames v →
          dhas V2 s = false := by
        intro a v hv haj s hs
        have hda : dhas V a = true := by
          rw [← F1 a]
          exact dget_some_dhas hv
        obtain ⟨va, hva⟩ := dhas_dget_exists hda
        rw [F1 s]
        exact F6 a (dget_some_mem_dkeys hva) (by omega) v hv s hs
      have hrank2 : ∀ k, dhas V2 k = true → r k < (j + 1) + m := by
        intro k hk
        rw [F1 k] at hk
        have := hrank k hk
        omega
      obtain ⟨L1, L2, L3⟩ := ihm (j + 1) V2 F3 hacy2 hcb2 hrank2
      refine ⟨L1, ?_, L3⟩
      intro x
      rw [L2 x, F1 x]




/-- Claim C7 (confirmed): when the name-reference graph among the collapsed
initializers is acyclic (witnessed by a rank function decreasing along
references, bounded by the table size), the `while (incomplete)` loop of
`collapseValues` reaches its fixed point within the modelled fuel; the
callback never expands a name reference equal to the binding currently being
rewritten; and at the fixed point no stored initializer contains a name
reference to any other collapsed binding. -/
theorem claim_C7 (values : Dict Item) (r : String → Nat)
    (hwf : ∀ p ∈ values, wfTree p.2 = true)
    (hacy : ∀ p ∈ values, ∀ s, s ∈ refNames p.2 → dhas values s = true → r s < r p.1)
    (hbound : ∀ p ∈ values, r p.1 ≤ values.length) :
    (collapseValues values).2 = true
    ∧ (∀ (vals : Dict Item) (w : String) (inc : Bool) (node : List Item) (ty : String),
        jsKeyOpt (node.get? 1) = w → collapseCb vals w inc node ty = (inc, CbRes.undef))
    ∧ (∀ a v, dget (collapseValues values).1 a = some v → ∀ s, s ∈ refNames v →
        dhas (collapseValues values).1 s = true → s = a) := by
  have hwf2 : ∀ a v, dget values a = some v → wfTree v = true := by
    intro a v hv
    exact hwf (a, v) (dget_mem hv)
  have hacy2 : ∀ a v, dget values a = some v → ∀ s, s ∈ refNames v →
      dhas values s = true → r s < r a := by
    intro a v hv s hs hds
    exact hacy (a, v) (dget_mem hv) s hs hds
  have hrank : ∀ k, dhas values k = true → r k < 0 + (values.length + 1) := by
    intro k hk
    obtain ⟨v, hv⟩ := dhas_dget_exists hk
    have h2 : r k ≤ values.length := hbound (k, v) (dget_mem hv)
    omega
  have hcb0 : ∀ a v, dget values a = some v → r a < 0 → ∀ s, s ∈ refNames v →
      dhas values s = false := by
    intro a v hv h
    omega
  obtain ⟨L1, L2, L3⟩ :=
    collapseLoop_props r (values.length + 1) 0 values hwf2 hacy2 hcb0 hrank
  have hcv : collapseValues values = collapseLoop (values.length + 1 + 1) values := rfl
  refine ⟨by rw [hcv]; exact L1, ?_, by rw [hcv]; exact L3⟩
  intro vals w inc node ty heq
  by_cases htyn : ty = "name"
  · subst htyn
    simp only [List.get?_eq_getElem?] at heq
    simp [collapseCb, heq]
  · simp [collapseCb, htyn]

/-- Witness for claim C7 on the acyclic table `{b: ['name','a'], a: ['num',1]}`
with rank 2 for `b` and 0 otherwise. -/
theorem claim_C7_witness :
    (∀ p ∈ ([("b", Item.arr [Item.str "name", Item.str "a"]),
             ("a", Item.arr [Item.str "num", Item.num 1])] : Dict Item),
       wfTree p.2 = true)
    ∧ (∀ p ∈ ([("b", Item.arr [Item.str "name", Item.str "a"]),
               ("a", Item.arr [Item.str "num", Item.num 1])] : Dict Item),
        ∀ s, s ∈ refNames p.2 →
          dhas ([("b", Item.arr [Item.str "name", Item.str "a"]),
                 ("a", Item.arr [Item.str "num", Item.num 1])] : Dict Item) s = true →
          (if s = "b" then 2 else 0) < (if p.1 = "b" then 2 else 0))
    ∧ (∀ p ∈ ([("b", Item.arr [Item.str "name", Item.str "a"]),
               ("a", Item.arr [Item.str "num", Item.num 1])] : Dict Item),
        (if p.1 = "b" then 2 else 0) ≤
          ([("b", Item.arr [Item.str "name", Item.str "a"]),
            ("a", Item.arr [Item.str "num", Item.num 1])] : Dict Item).length)
    ∧ (collapseValues [("b", Item.arr [Item.str "name", Item.str "a"]),
        ("a", Item.arr [Item.str "num", Item.num 1])]).2 = true :=
  ⟨by decide, by decide, by decide,
   (claim_C7 [("b", Item.arr [Item.str "name", Item.str "a"]),
      ("a", Item.arr [Item.str "num", Item.num 1])]
     (fun s => if s = "b" then 2 else 0) (by decide) (by decide) (by decide)).1⟩

theorem dhas_append_single {α : Type} (d : Dict α) (k : String) (v : α) (q : String) :
    dhas (d ++ [(k, v)]) q = true ↔ dhas d q = true ∨ q = k := by
  induction d with
  | nil =>
    by_cases hkq : k = q
    · simp [dhas, hkq]
    · simp [dhas, hkq]
      exact fun h => hkq h.symm
  | cons p rest ih =>
    by_cases hp : p.1 = q
    · simp [dhas, hp]
    · simp [dhas, hp, ih]

theorem dhas_dset_iff {α : Type} (d : Dict α) (k : String) (v : α) (q : String) :
    dhas (dset d k v) q = true ↔ (dhas d q = true ∨ q = k) := by
  unfold dset
  by_cases hk : dhas d k = true
  · rw [if_pos hk, dhas_map_set]
    constructor
    · exact Or.inl
    · rintro (h | h)
      · exact h
      · subst h
        exact hk
  · rw [if_neg hk]
    exact dhas_append_single d k v q

theorem dtruthy_dset_true_mono (d : Dict Bool) (k q : String)
    (h : dtruthy d q = true) : dtruthy (dset d k true) q = true := by
  by_cases hk : k = q
  · subst hk
    simp [dtruthy, dget_dset_self]
  · rwa [dtruthy_dset_ne d k q true hk]

theorem dtruthy_mem_dkeys {d : Dict Bool} {q : String} (h : dtruthy d q = true) :
    q ∈ dkeys d := by
  rw [dtruthy_iff] at h
  exact dget_some_mem_dkeys h

theorem filter_length_mono {α : Type} (l : List α) (p q : α → Bool)
    (h : ∀ x ∈ l, p x = true → q x = true) :
    (l.filter p).length ≤ (l.filter q).length := by
  induction l with
  | nil => simp
  | cons a rest ih =>
    have ih2 := ih (fun x hx => h x (List.mem_cons_of_mem _ hx))
    by_cases hp : p a = true
    · have hq := h a (List.mem_cons_self a rest) hp
      simp [List.filter_cons, hp, hq]
      omega
    · simp only [List.filter_cons]
      rw [if_neg (by simpa using hp)]
      by_cases hq : q a = true
      · rw [if_pos (by simpa using hq)]
        simp
        omega
      · rw [if_neg (by simpa using hq)]
        exact ih2

theorem filter_length_strict {α : Type} (l : List α) (p q : α → Bool) (z : α)
    (h : ∀ x ∈ l, p x = true → q x = true) (hz : z ∈ l) (hpz : p z = false)
    (hqz : q z = true) :
    (l.filter p).length + 1 ≤ (l.filter q).length := by
  induction l with
  | nil => simp at hz
  | cons a rest ih =>
    rcases List.mem_cons.mp hz with heq | hmem
    · subst heq
      have hmono := filter_length_mono rest p q (fun x hx => h x (List.mem_cons_of_mem _ hx))
      simp [List.filter_cons, hpz, hqz]
      omega
    · have ih2 := ih (fun x hx => h x (List.mem_cons_of_mem _ hx)) hmem
      by_cases hp : p a = true
      · have hq := h a (List.mem_cons_self a rest) hp
        simp [List.filter_cons, hp, hq]
        omega
      · simp only [List.filter_cons]
        rw [if_neg (by simpa using hp)]
        by_cases hq : q a = true
        · rw [if_pos (by simpa using hq)]
          simp
          omega
        · rw [if_neg (by simpa using hq)]
          exact ih2

theorem dhas_mem_dkeys {α : Type} {d : Dict α} {k : String} (h : dhas d k = true) :
    k ∈ dkeys d := by
  obtain ⟨v, hv⟩ := dhas_dget_exists h
  exact dget_some_mem_dkeys hv

theorem mem_dset {α : Type} {d : Dict α} {k : String} {v : α} {p : String × α}
    (h : p ∈ dset d k v) : p ∈ d ∨ p = (k, v) := by
  unfold dset at h
  by_cases hk : dhas d k = true
  · rw [if_pos hk] at h
    obtain ⟨a, ha, hfa⟩ := List.mem_map.mp h
    by_cases ha1 : a.1 = k
    · rw [if_pos ha1] at hfa
      exact Or.inr hfa.symm
    · rw [if_neg ha1] at hfa
      exact Or.inl (hfa ▸ ha)
  · rw [if_neg hk] at h
    rcases List.mem_append.mp h with h | h
    · exact Or.inl h
    · simp at h
      exact Or.inr h

theorem mem_dkeys_dset {α : Type} {d : Dict α} {k : String} {v : α} {q : String}
    (h : q ∈ dkeys (dset d k v)) : q ∈ dkeys d ∨ q = k := by
  have h2 := mem_dkeys_dhas h
  rcases (dhas_dset_iff d k v q).mp h2 with h3 | h3
  · exact Or.inl (dhas_mem_dkeys h3)
  · exact Or.inr h3

theorem edge_dset_add (A : Dict (Dict Bool)) (src t2 s t : String) :
    edgeOf (dset A src (dset ((dget A src).getD []) t2 true)) s t ↔
      (edgeOf A s t ∨ (s = src ∧ t = t2)) := by
  unfold edgeOf dtruthy
  by_cases hs : src = s
  · subst hs
    rw [dget_dset, if_pos rfl]
    simp only [Option.getD_some]
    rw [dget_dset]
    by_cases ht : t2 = t
    · subst ht
      rw [if_pos rfl]
      simp
    · rw [if_neg ht]
      constructor
      · exact fun h => Or.inl h
      · rintro (h | ⟨_, h⟩)
        · exact h
        · exact absurd h.symm ht
  · rw [dget_dset, if_neg hs]
    constructor
    · exact fun h => Or.inl h
    · rintro (h | ⟨h, _⟩)
      · exact h
      · exact absurd h.symm hs

theorem ecnt_mono (S U : List String) (G G2 : Dict (Dict Bool))
    (h : ∀ s t, edgeOf G s t → edgeOf G2 s t) : ecnt S U G ≤ ecnt S U G2 := by
  induction S with
  | nil => simp [ecnt]
  | cons a S ih =>
    simp only [ecnt, List.map_cons, List.sum_cons]
    have h1 := filter_length_mono U
      (fun t => dtruthy ((dget G a).getD []) t)
      (fun t => dtruthy ((dget G2 a).getD []) t)
      (fun t _ ht => h a t ht)
    have h2 : ecnt S U G ≤ ecnt S U G2 := ih
    simp only [ecnt] at h2
    omega

theorem ecnt_strict (S U : List String) (G G2 : Dict (Dict Bool)) (src t2 : String)
    (h : ∀ s t, edgeOf G s t → edgeOf G2 s t) (ht : t2 ∈ U)
    (hne : ¬edgeOf G src t2) (he : edgeOf G2 src t2) :
    ∀ hs : src ∈ S, ecnt S U G + 1 ≤ ecnt S U G2 := by
  induction S with
  | nil =>
    intro hs
    simp at hs
  | cons a S ih =>
    intro hs
    simp only [ecnt, List.map_cons, List.sum_cons]
    rcases List.mem_cons.mp hs with heq | hmem
    · subst heq
      have h1 := filter_length_strict U
        (fun t => dtruthy ((dget G src).getD []) t)
        (fun t => dtruthy ((dget G2 src).getD []) t) t2
        (fun t _ htt => h src t htt) ht
        (by
          simp only []
          cases hc : dtruthy ((dget G src).getD []) t2
          · rfl
          · exact absurd hc hne)
        he
      have h2 := ecnt_mono S U G G2 h
      simp only [ecnt] at h2
      omega
    · have h1 := filter_length_mono U
        (fun t => dtruthy ((dget G a).getD []) t)
        (fun t => dtruthy ((dget G2 a).getD []) t)
        (fun t _ htt => h a t htt)
      have h2 := ih hmem
      simp only [ecnt] at h2
      omega

theorem ecnt_bound (S U : List String) (G : Dict (Dict Bool)) :
    ecnt S U G ≤ S.length * U.length := by
  induction S with
  | nil => simp [ecnt]
  | cons a S ih =>
    simp only [ecnt, List.map_cons, List.sum_cons, List.length_cons]
    have h1 : (U.filter (fun t => dtruthy ((dget G a).getD []) t)).length ≤ U.length :=
      List.length_filter_le _ _
    simp only [ecnt] at ih
    have : (S.length + 1) * U.length = S.length * U.length + U.length := by ring
    omega

theorem tdAddEdge_pos (L : Dict Bool) (src : String) (td : TDState) (N : Dict Unit)
    (inc : Bool) (t2 : String) (h : edgeOf td.affects src t2) :
    tdAddEdge L src (td, N, inc) t2 = (td, N, inc) := by
  have h2 : dtruthy ((dget td.affects src).getD []) t2 = true := h
  unfold tdAddEdge
  simp only []
  rw [if_pos h2]

theorem tdAddEdge_neg (L : Dict Bool) (src : String) (td : TDState) (N : Dict Unit)
    (inc : Bool) (t2 : String) (h : ¬edgeOf td.affects src t2) :
    tdAddEdge L src (td, N, inc) t2 =
      (⟨dset td.affects src (dset ((dget td.affects src).getD []) t2 true),
        if !(dtruthy L src) then dset td.dependsOnAGlobal t2 true
        else td.dependsOnAGlobal⟩,
       dset N src (), true) := by
  have h2 : ¬(dtruthy ((dget td.affects src).getD []) t2 = true) := h
  unfold tdAddEdge
  simp only []
  rw [if_neg h2]
  by_cases hl : (!(dtruthy L src)) = true
  · rw [if_pos hl, if_pos hl]
  · rw [if_neg hl, if_neg hl]

theorem tdAddEdge_edge (L : Dict Bool) (src : String) (td : TDState) (N : Dict Unit)
    (inc : Bool) (t2 : String) (s t : String) :
    edgeOf (tdAddEdge L src (td, N, inc) t2).1.affects s t ↔
      (edgeOf td.affects s t ∨ (s = src ∧ t = t2)) := by
  by_cases h : edgeOf td.affects src t2
  · rw [tdAddEdge_pos L src td N inc t2 h]
    constructor
    · exact Or.inl
    · rintro (h2 | ⟨h2, h3⟩)
      · exact h2
      · subst h2
        subst h3
        exact h
  · rw [tdAddEdge_neg L src td N inc t2 h]
    exact edge_dset_add td.affects src t2 s t

theorem tdAddEdge_other (L : Dict Bool) (src : String) (td : TDState) (N : Dict Unit)
    (inc : Bool) (t2 : String) (q : String) (hq : ¬(q = src)) :
    dget (tdAddEdge L src (td, N, inc) t2).1.affects q = dget td.affects q := by
  by_cases h : edgeOf td.affects src t2
  · rw [tdAddEdge_pos L src td N inc t2 h]
  · rw [tdAddEdge_neg L src td N inc t2 h]
    exact dget_dset_ne _ src q _ (fun h2 => hq h2.symm)

theorem tdAddEdge_dhas (L : Dict Bool) (src : String) (td : TDState) (N : Dict Unit)
    (inc : Bool) (t2 : String) (q : String) :
    dhas (tdAddEdge L src (td, N, inc) t2).1.affects q = true ↔
      (dhas td.affects q = true ∨ q = src) := by
  by_cases h : edgeOf td.affects src t2
  · rw [tdAddEdge_pos L src td N inc t2 h]
    constructor
    · exact Or.inl
    · rintro (h2 | h2)
      · exact h2
      · subst h2
        unfold edgeOf dtruthy at h
        cases hg : dget td.affects q with
        | none => rw [hg] at h; simp [dget] at h
        | some d => exact dget_some_dhas hg
  · rw [tdAddEdge_neg L src td N inc t2 h]
    exact dhas_dset_iff td.affects src _ q

theorem tdAddEdge_nextTodo (L : Dict Bool) (src : String) (td : TDState) (N : Dict Unit)
    (inc : Bool) (t2 : String) (q : String) :
    dhas (tdAddEdge L src (td, N, inc) t2).2.1 q = true ↔
      (dhas N q = true ∨ (q = src ∧ ¬edgeOf td.affects src t2)) := by
  by_cases h : edgeOf td.affects src t2
  · rw [tdAddEdge_pos L src td N inc t2 h]
    constructor
    · exact Or.inl
    · rintro (h2 | ⟨_, h2⟩)
      · exact h2
      · exact absurd h h2
  · rw [tdAddEdge_neg L src td N inc t2 h]
    rw [dhas_dset_iff]
    constructor
    · rintro (h2 | h2)
      · exact Or.inl h2
      · exact Or.inr ⟨h2, h⟩
    · rintro (h2 | ⟨h2, _⟩)
      · exact Or.inl h2
      · exact Or.inr h2

theorem tdAddEdge_inc (L : Dict Bool) (src : String) (td : TDState) (N : Dict Unit)
    (inc : Bool) (t2 : String) :
    (tdAddEdge L src (td, N, inc) t2).2.2 = true ↔
      (inc = true ∨ ¬edgeOf td.affects src t2) := by
  by_cases h : edgeOf td.affects src t2
  · rw [tdAddEdge_pos L src td N inc t2 h]
    constructor
    · exact Or.inl
    · rintro (h2 | h2)
      · exact h2
      · exact absurd h h2
  · rw [tdAddEdge_neg L src td N inc t2 h]
    simp [h]

theorem tdAddEdge_dmono (L : Dict Bool) (src : String) (td : TDState) (N : Dict Unit)
    (inc : Bool) (t2 : String) (q : String)
    (h2 : dtruthy td.dependsOnAGlobal q = true) :
    dtruthy (tdAddEdge L src (td, N, inc) t2).1.dependsOnAGlobal q = true := by
  by_cases h : edgeOf td.affects src t2
  · rw [tdAddEdge_pos L src td N inc t2 h]
    exact h2
  · rw [tdAddEdge_neg L src td N inc t2 h]
    by_cases hl : (!(dtruthy L src)) = true
    · simp only [hl, if_true]
      exact dtruthy_dset_true_mono _ t2 q h2
    · simp only [hl, if_false]
      exact h2

theorem tdAddEdge_flags (L : Dict Bool) (src : String) (td : TDState) (N : Dict Unit)
    (inc : Bool) (t2 : String)
    (hf : ∀ s t, edgeOf td.affects s t → dtruthy L s = false →
      dtruthy td.dependsOnAGlobal t = true) :
    ∀ s t, edgeOf (tdAddEdge L src (td, N, inc) t2).1.affects s t →
      dtruthy L s = false →
      dtruthy (tdAddEdge L src (td, N, inc) t2).1.dependsOnAGlobal t = true := by
  intro s t he hl
  rcases (tdAddEdge_edge L src td N inc t2 s t).mp he with h2 | ⟨h2, h3⟩
  · exact tdAddEdge_dmono L src td N inc t2 t (hf s t h2 hl)
  · subst h2
    subst h3
    by_cases h : edgeOf td.affects s t
    · rw [tdAddEdge_pos L s td N inc t h]
      exact hf s t h hl
    · rw [tdAddEdge_neg L s td N inc t h]
      have hl2 : (!(dtruthy L s)) = true := by simp [hl]
      simp only [hl2, if_true]
      simp [dtruthy, dget_dset_self]

theorem tdAddEdge_vtrue (L : Dict Bool) (src : String) (td : TDState) (N : Dict Unit)
    (inc : Bool) (t2 : String)
    (hv : ∀ q d, dget td.affects q = some d → ∀ p ∈ d, p.2 = true) :
    ∀ q d, dget (tdAddEdge L src (td, N, inc) t2).1.affects q = some d →
      ∀ p ∈ d, p.2 = true := by
  intro q d hd p hp
  by_cases h : edgeOf td.affects src t2
  · rw [tdAddEdge_pos L src td N inc t2 h] at hd
    exact hv q d hd p hp
  · rw [tdAddEdge_neg L src td N inc t2 h] at hd
    simp only at hd
    by_cases hq : src = q
    · subst hq
      rw [dget_dset_self] at hd
      injection hd with hd
      rw [← hd] at hp
      rcases mem_dset hp with h2 | h2
      · cases hg : dget td.affects src with
        | none => rw [hg] at h2; simp at h2
        | some d0 =>
          rw [hg] at h2
          simp only [Option.getD_some] at h2
          exact hv src d0 hg p h2
      · rw [h2]
    · rw [dget_dset_ne _ _ _ _ hq] at hd
      exact hv q d hd p hp

theorem tdAddEdge_univ (L : Dict Bool) (src : String) (td : TDState) (N : Dict Unit)
    (inc : Bool) (t2 : String) (U : List String)
    (hu : ∀ q d, dget td.affects q = some d → ∀ z ∈ dkeys d, z ∈ U) (ht2 : t2 ∈ U) :
    ∀ q d, dget (tdAddEdge L src (td, N, inc) t2).1.affects q = some d →
      ∀ z ∈ dkeys d, z ∈ U := by
  intro q d hd z hz
  by_cases h : edgeOf td.affects src t2
  · rw [tdAddEdge_pos L src td N inc t2 h] at hd
    exact hu q d hd z hz
  · rw [tdAddEdge_neg L src td N inc t2 h] at hd
    simp only at hd
    by_cases hq : src = q
    · subst hq
      rw [dget_dset_self] at hd
      injection hd with hd
      rw [← hd] at hz
      rcases mem_dkeys_dset hz with h2 | h2
      · cases hg : dget td.affects src with
        | none => rw [hg] at h2; simp [dkeys] at h2
        | some d0 =>
          rw [hg] at h2
          simp only [Option.getD_some] at h2
          exact hu src d0 hg z h2
      · rw [h2]
        exact ht2
    · rw [dget_dset_ne _ _ _ _ hq] at hd
      exact hu q d hd z hz

theorem tdAddEdge_sound (L : Dict Bool) (src : String) (td : TDState) (N : Dict Unit)
    (inc : Bool) (t2 : String) (P : String → String → Prop)
    (hs : ∀ q z, edgeOf td.affects q z → P q z) (hp : P src t2) :
    ∀ q z, edgeOf (tdAddEdge L src (td, N, inc) t2).1.affects q z → P q z := by
  intro q z he
  rcases (tdAddEdge_edge L src td N inc t2 q z).mp he with h2 | ⟨h2, h3⟩
  · exact hs q z h2
  · subst h2
    subst h3
    exact hp

theorem taf_edge (L : Dict Bool) (src : String) : ∀ (l2 : List String) (td : TDState)
    (N : Dict Unit) (inc : Bool) (s t : String),
    edgeOf (l2.foldl (tdAddEdge L src) (td, N, inc)).1.affects s t ↔
      (edgeOf td.affects s t ∨ (s = src ∧ t ∈ l2)) := by
  intro l2
  induction l2 with
  | nil =>
    intro td N inc s t
    simp
  | cons z rest ih =>
    intro td N inc s t
    rw [List.foldl_cons]
    rcases hstep : tdAddEdge L src (td, N, inc) z with ⟨td1, N1, inc1⟩
    have he := tdAddEdge_edge L src td N inc z s t
    rw [hstep] at he
    simp only at he
    rw [ih td1 N1 inc1 s t, he, List.mem_cons]
    tauto

theorem taf_other (L : Dict Bool) (src : String) : ∀ (l2 : List String) (td : TDState)
    (N : Dict Unit) (inc : Bool) (q : String), ¬(q = src) →
    dget (l2.foldl (tdAddEdge L src) (td, N, inc)).1.affects q = dget td.affects q := by
  intro l2
  induction l2 with
  | nil =>
    intro td N inc q _
    rfl
  | cons z rest ih =>
    intro td N inc q hq
    rw [List.foldl_cons]
    rcases hstep : tdAddEdge L src (td, N, inc) z with ⟨td1, N1, inc1⟩
    have ho := tdAddEdge_other L src td N inc z q hq
    rw [hstep] at ho
    simp only at ho
    rw [ih td1 N1 inc1 q hq, ho]

theorem taf_dhas (L : Dict Bool) (src : String) : ∀ (l2 : List String) (td : TDState)
    (N : Dict Unit) (inc : Bool), dhas td.affects src = true → ∀ q,
    dhas (l2.foldl (tdAddEdge L src) (td, N, inc)).1.affects q = dhas td.affects q := by
  intro l2
  induction l2 with
  | nil =>
    intro td N inc _ q
    rfl
  | cons z rest ih =>
    intro td N inc hsrc q
    rw [List.foldl_cons]
    rcases hstep : tdAddEdge L src (td, N, inc) z with ⟨td1, N1, inc1⟩
    have hh := tdAddEdge_dhas L src td N inc z
    rw [hstep] at hh
    simp only at hh
    have hd1 : ∀ q2, dhas td1.affects q2 = dhas td.affects q2 := by
      intro q2
      cases hc : dhas td.affects q2 with
      | true => exact (hh q2).mpr (Or.inl hc)
      | false =>
        cases hc2 : dhas td1.affects q2 with
        | false => rfl
        | true =>
          rcases (hh q2).mp hc2 with h3 | h3
          · rw [hc] at h3
            simp at h3
          · subst h3
            rw [hc] at hsrc
            simp at hsrc
    rw [ih td1 N1 inc1 (by rw [hd1 src]; exact hsrc) q, hd1 q]

theorem taf_nextTodo (L : Dict Bool) (src : String) : ∀ (l2 : List String) (td : TDState)
    (N : Dict Unit) (inc : Bool) (q : String),
    dhas (l2.foldl (tdAddEdge L src) (td, N, inc)).2.1 q = true ↔
      (dhas N q = true ∨ (q = src ∧ ∃ z ∈ l2, ¬edgeOf td.affects src z)) := by
  intro l2
  induction l2 with
  | nil =>
    intro td N inc q
    simp
  | cons z rest ih =>
    intro td N inc q
    rw [List.foldl_cons]
    rcases hstep : tdAddEdge L src (td, N, inc) z with ⟨td1, N1, inc1⟩
    have hn := tdAddEdge_nextTodo L src td N inc z q
    have he := fun t => tdAddEdge_edge L src td N inc z src t
    rw [hstep] at hn he
    simp only at hn he
    rw [ih td1 N1 inc1 q, hn]
    constructor
    · rintro (h1 | ⟨h1, w, hw1, hw2⟩)
      · rcases h1 with h2 | ⟨h2, h3⟩
        · exact Or.inl h2
        · exact Or.inr ⟨h2, z, List.mem_cons_self z rest, h3⟩
      · have hw3 : ¬edgeOf td.affects src w := fun hc => hw2 ((he w).mpr (Or.inl hc))
        exact Or.inr ⟨h1, w, List.mem_cons_of_mem _ hw1, hw3⟩
    · rintro (h1 | ⟨h1, w, hw1, hw2⟩)
      · exact Or.inl (Or.inl h1)
      · rcases List.mem_cons.mp hw1 with h3 | h3
        · subst h3
          exact Or.inl (Or.inr ⟨h1, hw2⟩)
        · by_cases hc : edgeOf td1.affects src w
          · rcases (he w).mp hc with h4 | ⟨_, h4⟩
            · exact absurd h4 hw2
            · subst h4
              exact Or.inl (Or.inr ⟨h1, hw2⟩)
          · exact Or.inr ⟨h1, w, h3, hc⟩

theorem taf_inc (L : Dict Bool) (src : String) : ∀ (l2 : List String) (td : TDState)
    (N : Dict Unit) (inc : Bool),
    (l2.foldl (tdAddEdge L src) (td, N, inc)).2.2 = true ↔
      (inc = true ∨ (∃ z ∈ l2, ¬edgeOf td.affects src z)) := by
  intro l2
  induction l2 with
  | nil =>
    intro td N inc
    simp
  | cons z rest ih =>
    intro td N inc
    rw [List.foldl_cons]
    rcases hstep : tdAddEdge L src (td, N, inc) z with ⟨td1, N1, inc1⟩
    have hi := tdAddEdge_inc L src td N inc z
    have he := fun t => tdAddEdge_edge L src td N inc z src t
    rw [hstep] at hi he
    simp only at hi he
    rw [ih td1 N1 inc1, hi]
    constructor
    · rintro (h1 | ⟨w, hw1, hw2⟩)
      · rcases h1 with h2 | h2
        · exact Or.inl h2
        · exact Or.inr ⟨z, List.mem_cons_self z rest, h2⟩
      · have hw3 : ¬edgeOf td.affects src w := fun hc => hw2 ((he w).mpr (Or.inl hc))
        exact Or.inr ⟨w, List.mem_cons_of_mem _ hw1, hw3⟩
    · rintro (h1 | ⟨w, hw1, hw2⟩)
      · exact Or.inl (Or.inl h1)
      · rcases List.mem_cons.mp hw1 with h3 | h3
        · subst h3
          exact Or.inl (Or.inr hw2)
        · by_cases hc : edgeOf td1.affects src w
          · rcases (he w).mp hc with h4 | ⟨_, h4⟩
            · exact absurd h4 hw2
            · subst h4
              exact Or.inl (Or.inr hw2)
          · exact Or.inr ⟨w, h3, hc⟩

theorem taf_dmono (L : Dict Bool) (src : String) : ∀ (l2 : List String) (td : TDState)
    (N : Dict Unit) (inc : Bool) (q : String),
    dtruthy td.dependsOnAGlobal q = true →
    dtruthy (l2.foldl (tdAddEdge L src) (td, N, inc)).1.dependsOnAGlobal q = true := by
  intro l2
  induction l2 with
  | nil =>
    intro td N inc q h
    exact h
  | cons z rest ih =>
    intro td N inc q h
    rw [List.foldl_cons]
    rcases hstep : tdAddEdge L src (td, N, inc) z with ⟨td1, N1, inc1⟩
    have hm := tdAddEdge_dmono L src td N inc z q h
    rw [hstep] at hm
    simp only at hm
    exact ih td1 N1 inc1 q hm

theorem taf_flags (L : Dict Bool) (src : String) : ∀ (l2 : List String) (td : TDState)
    (N : Dict Unit) (inc : Bool),
    (∀ s t, edgeOf td.affects s t → dtruthy L s = false →
      dtruthy td.dependsOnAGlobal t = true) →
    ∀ s t, edgeOf (l2.foldl (tdAddEdge L src) (td, N, inc)).1.affects s t →
      dtruthy L s = false →
      dtruthy (l2.foldl (tdAddEdge L src) (td, N, inc)).1.dependsOnAGlobal t = true := by
  intro l2
  induction l2 with
  | nil =>
    intro td N inc hf s t he hl
    exact hf s t he hl
  | cons z rest ih =>
    intro td N inc hf s t he hl
    rw [List.foldl_cons] at he ⊢
    rcases hstep : tdAddEdge L src (td, N, inc) z with ⟨td1, N1, inc1⟩
    have hfl := tdAddEdge_flags L src td N inc z hf
    rw [hstep] at hfl he
    simp only at hfl
    exact ih td1 N1 inc1 hfl s t he hl

theorem taf_vtrue (L : Dict Bool) (src : String) : ∀ (l2 : List String) (td : TDState)
    (N : Dict Unit) (inc : Bool),
    (∀ q d, dget td.affects q = some d → ∀ p ∈ d, p.2 = true) →
    ∀ q d, dget (l2.foldl (tdAddEdge L src) (td, N, inc)).1.affects q = some d →
      ∀ p ∈ d, p.2 = true := by
  intro l2
  induction l2 with
  | nil =>
    intro td N inc hv
    exact hv
  | cons z rest ih =>
    intro td N inc hv
    rw [List.foldl_cons]
    rcases hstep : tdAddEdge L src (td, N, inc) z with ⟨td1, N1, inc1⟩
    have hv1 := tdAddEdge_vtrue L src td N inc z hv
    rw [hstep] at hv1
    simp only at hv1
    exact ih td1 N1 inc1 hv1

theorem taf_univ (L : Dict Bool) (src : String) (U : List String) : ∀ (l2 : List String)
    (td : TDState) (N : Dict Unit) (inc : Bool),
    (∀ q d, dget td.affects q = some d → ∀ z ∈ dkeys d, z ∈ U) →
    (∀ z ∈ l2, z ∈ U) →
    ∀ q d, dget (l2.foldl (tdAddEdge L src) (td, N, inc)).1.affects q = some d →
      ∀ z ∈ dkeys d, z ∈ U := by
  intro l2
  induction l2 with
  | nil =>
    intro td N inc hu _
    exact hu
  | cons z rest ih =>
    intro td N inc hu hl
    rw [List.foldl_cons]
    rcases hstep : tdAddEdge L src (td, N, inc) z with ⟨td1, N1, inc1⟩
    have hu1 := tdAddEdge_univ L src td N inc z U hu (hl z (List.mem_cons_self z rest))
    rw [hstep] at hu1
    simp only at hu1
    exact ih td1 N1 inc1 hu1 (fun w hw => hl w (List.mem_cons_of_mem _ hw))

theorem taf_sound (L : Dict Bool) (src : String) (P : String → String → Prop) :
    ∀ (l2 : List String) (td : TDState) (N : Dict Unit) (inc : Bool),
    (∀ q z, edgeOf td.affects q z → P q z) → (∀ z ∈ l2, P src z) →
    ∀ q z, edgeOf (l2.foldl (tdAddEdge L src) (td, N, inc)).1.affects q z → P q z := by
  intro l2
  induction l2 with
  | nil =>
    intro td N inc hs _
    exact hs
  | cons z rest ih =>
    intro td N inc hs hp
    rw [List.foldl_cons]
    rcases hstep : tdAddEdge L src (td, N, inc) z with ⟨td1, N1, inc1⟩
    have hs1 := tdAddEdge_sound L src td N inc z P hs (hp z (List.mem_cons_self z rest))
    rw [hstep] at hs1
    simp only at hs1
    exact ih td1 N1 inc1 hs1 (fun w hw => hp w (List.mem_cons_of_mem _ hw))

theorem tdTarget_neg (L : Dict Bool) (T : Dict Unit) (x : String)
    (acc : TDState × Dict Unit × Bool) (y : String) (h : dhas T y = false) :
    tdTarget L T x acc y = acc := by
  unfold tdTarget
  rw [h]
  simp

theorem tdTarget_pos (L : Dict Bool) (T : Dict Unit) (x : String)
    (acc : TDState × Dict Unit × Bool) (y : String) (h : dhas T y = true) :
    tdTarget L T x acc y =
      (dkeys ((dget acc.1.affects y).getD [])).foldl (tdAddEdge L x) acc := by
  unfold tdTarget
  rw [h]
  simp

theorem taf_id (L : Dict Bool) (src : String) : ∀ (l2 : List String) (td : TDState)
    (N : Dict Unit) (inc : Bool), (∀ z ∈ l2, edgeOf td.affects src z) →
    l2.foldl (tdAddEdge L src) (td, N, inc) = (td, N, inc) := by
  intro l2
  induction l2 with
  | nil =>
    intro td N inc _
    rfl
  | cons z rest ih =>
    intro td N inc he
    rw [List.foldl_cons, tdAddEdge_pos L src td N inc z (he z (List.mem_cons_self z rest))]
    exact ih td N inc (fun w hw => he w (List.mem_cons_of_mem _ hw))

theorem vtrue_dkeys_edge {G : Dict (Dict Bool)} {q : String} {d : Dict Bool}
    (hv : ∀ p ∈ d, p.2 = true) (hg : dget G q = some d) :
    ∀ z ∈ dkeys d, edgeOf G q z := by
  intro z hz
  obtain ⟨v, hvz⟩ := dhas_dget_exists (mem_dkeys_dhas hz)
  have : v = true := hv (z, v) (dget_mem hvz)
  unfold edgeOf dtruthy
  rw [hg]
  simp only [Option.getD_some]
  rw [hvz, this]
  rfl

theorem extAdd_cons (T : Dict Unit) (G : Dict (Dict Bool)) (y : String) (ys : List String)
    (z : String) :
    extAdd T G (y :: ys) z ↔
      ((dhas T y = true ∧ z ∈ dkeys ((dget G y).getD [])) ∨ extAdd T G ys z) := by
  unfold extAdd
  constructor
  · rintro ⟨w, hw, hT, hz⟩
    rcases List.mem_cons.mp hw with h | h
    · subst h
      exact Or.inl ⟨hT, hz⟩
    · exact Or.inr ⟨w, h, hT, hz⟩
  · rintro (⟨hT, hz⟩ | ⟨w, hw, hT, hz⟩)
    · exact ⟨y, List.mem_cons_self y ys, hT, hz⟩
    · exact ⟨w, List.mem_cons_of_mem _ hw, hT, hz⟩

theorem extAdd_nil (T : Dict Unit) (G : Dict (Dict Bool)) (z : String) :
    ¬extAdd T G [] z := by
  rintro ⟨w, hw, _⟩
  simp at hw

theorem tgt_fold_props (L : Dict Bool) (T : Dict Unit) (x : String) (U : List String) :
    ∀ (ys : List String) (td0 : TDState) (N0 : Dict Unit) (inc0 : Bool),
    (∀ q d, dget td0.affects q = some d → ∀ p ∈ d, p.2 = true) →
    ((∀ s t, edgeOf (ys.foldl (tdTarget L T x) (td0, N0, inc0)).1.affects s t ↔
        (edgeOf td0.affects s t ∨ (s = x ∧ extAdd T td0.affects ys t)))
     ∧ (∀ q, ¬(q = x) →
        dget (ys.foldl (tdTarget L T x) (td0, N0, inc0)).1.affects q = dget td0.affects q)
     ∧ (dhas td0.affects x = true → ∀ q,
        dhas (ys.foldl (tdTarget L T x) (td0, N0, inc0)).1.affects q = dhas td0.affects q)
     ∧ (∀ q, dhas (ys.foldl (tdTarget L T x) (td0, N0, inc0)).2.1 q = true ↔
        (dhas N0 q = true ∨
         (q = x ∧ ∃ z, extAdd T td0.affects ys z ∧ ¬edgeOf td0.affects x z)))
     ∧ ((ys.foldl (tdTarget L T x) (td0, N0, inc0)).2.2 = true ↔
        (inc0 = true ∨ ∃ z, extAdd T td0.affects ys z ∧ ¬edgeOf td0.affects x z))
     ∧ (∀ q, dtruthy td0.dependsOnAGlobal q = true →
        dtruthy (ys.foldl (tdTarget L T x) (td0, N0, inc0)).1.dependsOnAGlobal q = true)
     ∧ ((∀ s t, edgeOf td0.affects s t → dtruthy L s = false →
          dtruthy td0.dependsOnAGlobal t = true) →
        ∀ s t, edgeOf (ys.foldl (tdTarget L T x) (td0, N0, inc0)).1.affects s t →
          dtruthy L s = false →
          dtruthy (ys.foldl (tdTarget L T x) (td0, N0, inc0)).1.dependsOnAGlobal t = true)
     ∧ (∀ q d, dget (ys.foldl (tdTarget L T x) (td0, N0, inc0)).1.affects q = some d →
        ∀ p ∈ d, p.2 = true)
     ∧ ((∀ q d, dget td0.affects q = some d → ∀ z ∈ dkeys d, z ∈ U) →
        ∀ q d, dget (ys.foldl (tdTarget L T x) (td0, N0, inc0)).1.affects q = some d →
          ∀ z ∈ dkeys d, z ∈ U)
     ∧ (∀ (P : String → String → Prop), (∀ q z, edgeOf td0.affects q z → P q z) →
        (∀ z, extAdd T td0.affects ys z → P x z) →
        ∀ q z, edgeOf (ys.foldl (tdTarget L T x) (td0, N0, inc0)).1.affects q z → P q z)) := by
  intro ys
  induction ys with
  | nil =>
    intro td0 N0 inc0 hv
    refine ⟨?_, ?_, ?_, ?_, ?_, ?_, ?_, ?_, ?_, ?_⟩
    · intro s t
      simp [extAdd_nil]
    · intro q _
      rfl
    · intro _ q
      rfl
    · intro q
      simp [extAdd_nil]
    · simp [extAdd_nil]
    · intro q h
      exact h
    · intro hf
      exact hf
    · exact hv
    · intro hu
      exact hu
    · intro P hs _
      exact hs
  | cons y ys ih =>
    intro td0 N0 inc0 hv
    rw [List.foldl_cons]
    by_cases hTy : dhas T y = true
    · by_cases hyx : y = x
      · subst hyx
        have hid : tdTarget L T y (td0, N0, inc0) y = (td0, N0, inc0) := by
          rw [tdTarget_pos L T y (td0, N0, inc0) y hTy]
          apply taf_id
          intro z hz
          cases hg : dget td0.affects y with
          | none =>
            rw [hg] at hz
            simp [dkeys] at hz
          | some d =>
            rw [hg] at hz
            simp only [Option.getD_some] at hz
            exact vtrue_dkeys_edge (hv y d hg) hg z hz
        rw [hid]
        obtain ⟨i1, i2, i3, i4, i5, i6, i7, i8, i9, i10⟩ := ih td0 N0 inc0 hv
        have habs : ∀ z, dhas T y = true ∧ z ∈ dkeys ((dget td0.affects y).getD []) →
            edgeOf td0.affects y z := by
          rintro z ⟨_, hz⟩
          cases hg : dget td0.affects y with
          | none =>
            rw [hg] at hz
            simp [dkeys] at hz
          | some d =>
            rw [hg] at hz
            simp only [Option.getD_some] at hz
            exact vtrue_dkeys_edge (hv y d hg) hg z hz
        refine ⟨?_, i2, i3, ?_, ?_, i6, i7, i8, i9, ?_⟩
        · intro s t
          rw [i1 s t, extAdd_cons]
          constructor
          · rintro (h | ⟨h1, h2⟩)
            · exact Or.inl h
            · exact Or.inr ⟨h1, Or.inr h2⟩
          · rintro (h | ⟨h1, h2 | h2⟩)
            · exact Or.inl h
            · subst h1
              exact Or.inl (habs t h2)
            · exact Or.inr ⟨h1, h2⟩
        · intro q
          rw [i4 q]
          constructor
          · rintro (h | ⟨h1, z, h2, h3⟩)
            · exact Or.inl h
            · exact Or.inr ⟨h1, z, (extAdd_cons T td0.affects y ys z).mpr (Or.inr h2), h3⟩
          · rintro (h | ⟨h1, z, h2, h3⟩)
            · exact Or.inl h
            · rcases (extAdd_cons T td0.affects y ys z).mp h2 with h4 | h4
              · subst h1
                exact absurd (habs z h4) h3
              · exact Or.inr ⟨h1, z, h4, h3⟩
        · rw [i5]
          constructor
          · rintro (h | ⟨z, h2, h3⟩)
            · exact Or.inl h
            · exact Or.inr ⟨z, (extAdd_cons T td0.affects y ys z).mpr (Or.inr h2), h3⟩
          · rintro (h | ⟨z, h2, h3⟩)
            · exact Or.inl h
            · rcases (extAdd_cons T td0.affects y ys z).mp h2 with h4 | h4
              · exact absurd (habs z h4) h3
              · exact Or.inr ⟨z, h4, h3⟩
        · intro P hs hp
          exact i10 P hs (fun z hz =>
            hp z ((extAdd_cons T td0.affects y ys z).mpr (Or.inr hz)))
      · rw [tdTarget_pos L T x (td0, N0, inc0) y hTy]
        simp only []
        rcases hacc : (dkeys ((dget td0.affects y).getD [])).foldl (tdAddEdge L x)
            (td0, N0, inc0) with ⟨td1, N1, inc1⟩
        have he1 := taf_edge L x (dkeys ((dget td0.affects y).getD [])) td0 N0 inc0
        have ho1 := taf_other L x (dkeys ((dget td0.affects y).getD [])) td0 N0 inc0
        have hh1 := taf_dhas L x (dkeys ((dget td0.affects y).getD [])) td0 N0 inc0
        have hn1 := taf_nextTodo L x (dkeys ((dget td0.affects y).getD [])) td0 N0 inc0
        have hi1 := taf_inc L x (dkeys ((dget td0.affects y).getD [])) td0 N0 inc0
        have hd1 := taf_dmono L x (dkeys ((dget td0.affects y).getD [])) td0 N0 inc0
        have hf1 := taf_flags L x (dkeys ((dget td0.affects y).getD [])) td0 N0 inc0
        have hv1 := taf_vtrue L x (dkeys ((dget td0.affects y).getD [])) td0 N0 inc0 hv
        have hu1 := taf_univ L x U (dkeys ((dget td0.affects y).getD [])) td0 N0 inc0
        have hs1 := taf_sound L x
        rw [hacc] at he1 ho1 hh1 hn1 hi1 hd1 hf1 hv1 hu1
        simp only at he1 ho1 hh1 hn1 hi1 hd1 hf1 hv1 hu1
        obtain ⟨i1, i2, i3, i4, i5, i6, i7, i8, i9, i10⟩ := ih td1 N1 inc1 hv1
        have hl2 : ∀ z, z ∈ dkeys ((dget td0.affects y).getD []) →
            (dhas T y = true ∧ z ∈ dkeys ((dget td0.affects y).getD [])) :=
          fun z hz => ⟨hTy, hz⟩
        have hextf : ∀ z, extAdd T td1.affects ys z →
            edgeOf td0.affects x z ∨ extAdd T td0.affects (y :: ys) z := by
          rintro z ⟨w, hw, hTw, hz⟩
          by_cases hwx : w = x
          · subst hwx
            cases hg : dget td1.affects w with
            | none =>
              rw [hg] at hz
              simp [dkeys] at hz
            | some d =>
              rw [hg] at hz
              simp only [Option.getD_some] at hz
              have hedge := vtrue_dkeys_edge (hv1 w d hg) hg z hz
              rcases (he1 w z).mp hedge with h | ⟨_, h⟩
              · exact Or.inl h
              · exact Or.inr ⟨y, List.mem_cons_self y ys, hTy, h⟩
          · rw [ho1 w hwx] at hz
            exact Or.inr ⟨w, List.mem_cons_of_mem _ hw, hTw, hz⟩
        have hextb : ∀ z, extAdd T td0.affects (y :: ys) z →
            (z ∈ dkeys ((dget td0.affects y).getD []) ∨ extAdd T td1.affects ys z ∨
             edgeOf td0.affects x z) := by
          intro z hz
          rcases (extAdd_cons T td0.affects y ys z).mp hz with ⟨_, h⟩ | ⟨w, hw, hTw, h⟩
          · exact Or.inl h
          · by_cases hwx : w = x
            · subst hwx
              cases hg : dget td0.affects w with
              | none =>
                rw [hg] at h
                simp [dkeys] at h
              | some d =>
                rw [hg] at h
                simp only [Option.getD_some] at h
                exact Or.inr (Or.inr (vtrue_dkeys_edge (hv w d hg) hg z h))
            · rw [← ho1 w hwx] at h
              exact Or.inr (Or.inl ⟨w, hw, hTw, h⟩)
        refine ⟨?_, ?_, ?_, ?_, ?_, ?_, ?_, i8, ?_, ?_⟩
        · intro s t
          rw [i1 s t, he1 s t]
          constructor
          · rintro ((h | ⟨h1, h2⟩) | ⟨h1, h2⟩)
            · exact Or.inl h
            · exact Or.inr ⟨h1, (extAdd_cons T td0.affects y ys t).mpr (Or.inl ⟨hTy, h2⟩)⟩
            · rcases hextf t h2 with h3 | h3
              · exact Or.inl (h1 ▸ h3)
              · exact Or.inr ⟨h1, h3⟩
          · rintro (h | ⟨h1, h2⟩)
            · exact Or.inl (Or.inl h)
            · rcases hextb t h2 with h3 | h3 | h3
              · exact Or.inl (Or.inr ⟨h1, h3⟩)
              · exact Or.inr ⟨h1, h3⟩
              · exact Or.inl (Or.inl (h1 ▸ h3))
        · intro q hq
          rw [i2 q hq, ho1 q hq]
        · intro hx q
          rw [i3 (by rw [hh1 hx x]; exact hx) q, hh1 hx q]
        · intro q
          rw [i4 q]
          constructor
          · rintro (h | ⟨h1, z, h2, h3⟩)
            · rcases (hn1 q).mp h with h4 | ⟨h4, z, h5, h6⟩
              · exact Or.inl h4
              · exact Or.inr ⟨h4,
                  z, (extAdd_cons T td0.affects y ys z).mpr (Or.inl ⟨hTy, h5⟩), h6⟩
            · have h3b : ¬edgeOf td0.affects x z := by
                intro hc
                exact h3 ((he1 x z).mpr (Or.inl hc))
              rcases hextf z h2 with h4 | h4
              · exact absurd h4 h3b
              · exact Or.inr ⟨h1, z, h4, h3b⟩
          · rintro (h | ⟨h1, z, h2, h3⟩)
            · exact Or.inl ((hn1 q).mpr (Or.inl h))
            · rcases hextb z h2 with h4 | h4 | h4
              · exact Or.inl ((hn1 q).mpr (Or.inr ⟨h1, z, h4, h3⟩))
              · by_cases hc : edgeOf td1.affects x z
                · rcases (he1 x z).mp hc with h5 | ⟨_, h5⟩
                  · exact absurd h5 h3
                  · exact Or.inl ((hn1 q).mpr (Or.inr ⟨h1, z, h5, h3⟩))
                · exact Or.inr ⟨h1, z, h4, hc⟩
              · exact absurd h4 h3
        · rw [i5]
          constructor
          · rintro (h | ⟨z, h2, h3⟩)
            · rcases (hi1).mp h with h4 | ⟨z, h5, h6⟩
              · exact Or.inl h4
              · exact Or.inr
                  ⟨z, (extAdd_cons T td0.affects y ys z).mpr (Or.inl ⟨hTy, h5⟩), h6⟩
            · have h3b : ¬edgeOf td0.affects x z := by
                intro hc
                exact h3 ((he1 x z).mpr (Or.inl hc))
              rcases hextf z h2 with h4 | h4
              · exact absurd h4 h3b
              · exact Or.inr ⟨z, h4, h3b⟩
          · rintro (h | ⟨z, h2, h3⟩)
            · exact Or.inl (hi1.mpr (Or.inl h))
            · rcases hextb z h2 with h4 | h4 | h4
              · exact Or.inl (hi1.mpr (Or.inr ⟨z, h4, h3⟩))
              · by_cases hc : edgeOf td1.affects x z
                · rcases (he1 x z).mp hc with h5 | ⟨_, h5⟩
                  · exact absurd h5 h3
                  · exact Or.inl (hi1.mpr (Or.inr ⟨z, h5, h3⟩))
                · exact Or.inr ⟨z, h4, hc⟩
              · exact absurd h4 h3
        · intro q h
          exact i6 q (hd1 q h)
        · intro hf
          exact i7 (hf1 hf)
        · intro hu
          have hl2U : ∀ z ∈ dkeys ((dget td0.affects y).getD []), z ∈ U := by
            intro z hz
            cases hg : dget td0.affects y with
            | none =>
              rw [hg] at hz
              simp [dkeys] at hz
            | some d =>
              rw [hg] at hz
              simp only [Option.getD_some] at hz
              exact hu y d hg z hz
          exact i9 (hu1 hu hl2U)
        · intro P hs hp
          have hsnd := taf_sound L x P (dkeys ((dget td0.affects y).getD [])) td0 N0 inc0
            hs (fun z hz =>
              hp z ((extAdd_cons T td0.affects y ys z).mpr (Or.inl ⟨hTy, hz⟩)))
          rw [hacc] at hsnd
          simp only at hsnd
          refine i10 P hsnd ?_
          intro z hz
          rcases hextf z hz with h | h
          · exact hs x z h
          · exact hp z h
    · have hTy2 : dhas T y = false := by
        cases hc : dhas T y
        · rfl
        · exact absurd hc hTy
      rw [tdTarget_neg L T x (td0, N0, inc0) y hTy2]
      obtain ⟨i1, i2, i3, i4, i5, i6, i7, i8, i9, i10⟩ := ih td0 N0 inc0 hv
      have hext : ∀ z, extAdd T td0.affects (y :: ys) z ↔ extAdd T td0.affects ys z := by
        intro z
        rw [extAdd_cons]
        constructor
        · rintro (⟨h1, _⟩ | h)
          · rw [h1] at hTy2
            simp at hTy2
          · exact h
        · exact Or.inr
      refine ⟨?_, i2, i3, ?_, ?_, i6, i7, i8, i9, ?_⟩
      · intro s t
        rw [i1 s t]
        simp only [hext]
      · intro q
        rw [i4 q]
        simp only [hext]
      · rw [i5]
        simp only [hext]
      · intro P hs hp
        exact i10 P hs (fun z hz => hp z ((hext z).mpr hz))

theorem dkeys_dset_of_has {α : Type} {d : Dict α} {k : String} (v : α)
    (h : dhas d k = true) : dkeys (dset d k v) = dkeys d := by
  unfold dset
  rw [h]
  simp only [if_true, dkeys, List.map_map]
  apply List.map_congr_left
  intro p _
  by_cases hp : p.1 = k
  · simp [hp]
  · simp [hp]

theorem tdAddEdge_dkeys (L : Dict Bool) (src : String) (td : TDState) (N : Dict Unit)
    (inc : Bool) (t2 : String) (h : dhas td.affects src = true) :
    dkeys (tdAddEdge L src (td, N, inc) t2).1.affects = dkeys td.affects := by
  by_cases he : edgeOf td.affects src t2
  · rw [tdAddEdge_pos L src td N inc t2 he]
  · rw [tdAddEdge_neg L src td N inc t2 he]
    exact dkeys_dset_of_has _ h

theorem taf_dkeys (L : Dict Bool) (src : String) : ∀ (l2 : List String) (td : TDState)
    (N : Dict Unit) (inc : Bool), dhas td.affects src = true →
    dkeys (l2.foldl (tdAddEdge L src) (td, N, inc)).1.affects = dkeys td.affects := by
  intro l2
  induction l2 with
  | nil =>
    intro td N inc _
    rfl
  | cons z rest ih =>
    intro td N inc hsrc
    rw [List.foldl_cons]
    rcases hstep : tdAddEdge L src (td, N, inc) z with ⟨td1, N1, inc1⟩
    have hk := tdAddEdge_dkeys L src td N inc z hsrc
    have hh := tdAddEdge_dhas L src td N inc z src
    rw [hstep] at hk hh
    simp only at hk hh
    have hsrc1 : dhas td1.affects src = true := hh.mpr (Or.inl hsrc)
    rw [ih td1 N1 inc1 hsrc1, hk]

theorem tgt_dkeys (L : Dict Bool) (T : Dict Unit) (x : String) : ∀ (ys : List String)
    (td0 : TDState) (N0 : Dict Unit) (inc0 : Bool), dhas td0.affects x = true →
    dkeys (ys.foldl (tdTarget L T x) (td0, N0, inc0)).1.affects = dkeys td0.affects := by
  intro ys
  induction ys with
  | nil =>
    intro td0 N0 inc0 _
    rfl
  | cons y ys ih =>
    intro td0 N0 inc0 hx
    rw [List.foldl_cons]
    by_cases hTy : dhas T y = true
    · rw [tdTarget_pos L T x (td0, N0, inc0) y hTy]
      simp only []
      rcases hacc : (dkeys ((dget td0.affects y).getD [])).foldl (tdAddEdge L x)
          (td0, N0, inc0) with ⟨td1, N1, inc1⟩
      have hk := taf_dkeys L x (dkeys ((dget td0.affects y).getD [])) td0 N0 inc0 hx
      have hh := taf_dhas L x (dkeys ((dget td0.affects y).getD [])) td0 N0 inc0 hx x
      rw [hacc] at hk hh
      simp only at hk hh
      have hx1 : dhas td1.affects x = true := by
        rw [hh]
        exact hx
      rw [ih td1 N1 inc1 hx1, hk]
    · have hTy2 : dhas T y = false := by
        cases hc : dhas T y
        · rfl
        · exact absurd hc hTy
      rw [tdTarget_neg L T x (td0, N0, inc0) y hTy2]
      exact ih td0 N0 inc0 hx

theorem edge_mem_dkeys {G : Dict (Dict Bool)} {q u : String} (h : edgeOf G q u) :
    u ∈ dkeys ((dget G q).getD []) :=
  dtruthy_mem_dkeys h

theorem tdSource_step (L : Dict Bool) (U : List String) (A : Dict (Dict Bool))
    (T : Dict Unit) (x : String) (R : List String) (td0 : TDState) (N0 : Dict Unit)
    (inc0 : Bool)
    (hinv4 : inv4 A T)
    (hAvt : ∀ q d, dget A q = some d → ∀ p ∈ d, p.2 = true)
    (hxR : ¬x ∈ R)
    (hmid : TDMid L U A T (x :: R) (td0, N0, inc0)) :
    TDMid L U A T R (tdSource L T (td0, N0, inc0) x) := by
  have hremx : dget td0.affects x = dget A x := hmid.rem x (List.mem_cons_self x R)
  have hsrc : tdSource L T (td0, N0, inc0) x =
      (dkeys ((dget td0.affects x).getD [])).foldl (tdTarget L T x) (td0, N0, inc0) := rfl
  by_cases hx : dhas A x = true
  case neg =>
    have hnone : dget A x = none := by
      cases hc : dget A x with
      | none => rfl
      | some d => exact absurd (dget_some_dhas hc) hx
    have hys : dkeys ((dget td0.affects x).getD []) = ([] : List String) := by
      rw [hremx, hnone]
      rfl
    rw [hsrc, hys]
    simp only [List.foldl_nil]
    have hxedge : ∀ z, ¬edgeOf td0.affects x z := by
      intro z hz
      unfold edgeOf at hz
      rw [hremx, hnone] at hz
      simp [dtruthy, dget] at hz
    refine ⟨hmid.mono, hmid.dom, ?_, ?_, hmid.nstab, hmid.incf, hmid.vt, hmid.univ,
      hmid.flags, hmid.ngrow, hmid.grow, hmid.sound, hmid.keys⟩
    · intro q hq
      exact hmid.rem q (List.mem_cons_of_mem _ hq)
    · intro x2 hx2
      by_cases hxx : x2 = x
      · subst hxx
        intro t u het _
        exact absurd het (hxedge t)
      · have hq := hmid.qdone x2 (by
          intro hc
          rcases List.mem_cons.mp hc with h | h
          · exact hxx h
          · exact hx2 h)
        intro t u het heu
        rcases hq t u het heu with h | h | ⟨w, hw1, hw2, hw3, hw4⟩
        · exact Or.inl h
        · exact Or.inr (Or.inl h)
        · rcases List.mem_cons.mp hw2 with hwx | hwx
          · subst hwx
            obtain ⟨m, hm1, _⟩ := hw4
            have hAxe : ¬edgeOf A w m := by
              unfold edgeOf
              rw [hnone]
              simp [dtruthy, dget]
            exact absurd hm1 hAxe
          · exact Or.inr (Or.inr ⟨w, hw1, hwx, hw3, hw4⟩)
  case pos =>
    have hdx : dhas td0.affects x = true := by
      rw [hmid.dom x]
      exact hx
    obtain ⟨g1, g2, g3, g4, g5, g6, g7, g8, g9, g10⟩ :=
      tgt_fold_props L T x U (dkeys ((dget td0.affects x).getD [])) td0 N0 inc0 hmid.vt
    rw [hsrc]
    set ys := dkeys ((dget td0.affects x).getD []) with hysdef
    set F := ys.foldl (tdTarget L T x) (td0, N0, inc0) with hF
    have hysedge : ∀ y, y ∈ ys → edgeOf A x y := by
      intro y hy
      rw [hysdef, hremx] at hy
      cases hg : dget A x with
      | none =>
        rw [hg] at hy
        simp [dkeys] at hy
      | some d =>
        rw [hg] at hy
        simp only [Option.getD_some] at hy
        exact vtrue_dkeys_edge (hAvt x d hg) hg y hy
    have hmemys : ∀ y, edgeOf A x y → y ∈ ys := by
      intro y hy
      rw [hysdef, hremx]
      unfold edgeOf at hy
      exact dtruthy_mem_dkeys hy
    have hext_of : ∀ m u2, edgeOf A x m → dhas T m = true → edgeOf td0.affects m u2 →
        extAdd T td0.affects ys u2 :=
      fun m u2 h1 h2 h3 => ⟨m, hmemys m h1, h2, edge_mem_dkeys h3⟩
    have hfin_of_inv4 : ∀ t2 u2, edgeOf A x t2 → edgeOf A t2 u2 →
        edgeOf F.1.affects x u2 := by
      intro t2 u2 ht2 hu2
      by_cases hc : edgeOf A x u2
      · exact (g1 x u2).mpr (Or.inl (hmid.mono x u2 hc))
      · obtain ⟨m, hm1, hm2, hm3⟩ := hinv4 x t2 u2 ht2 hu2 hc
        exact (g1 x u2).mpr (Or.inr ⟨rfl, hext_of m u2 hm1 hm2 (hmid.mono m u2 hm3)⟩)
    refine ⟨?_, ?_, ?_, ?_, ?_, ?_, g8, g9 hmid.univ, g7 hmid.flags, ?_, ?_, ?_, ?_⟩
    · intro s t h
      exact (g1 s t).mpr (Or.inl (hmid.mono s t h))
    · intro q
      rw [g3 hdx q, hmid.dom q]
    · intro q hq
      have hqx : ¬(q = x) := fun h => hxR (h ▸ hq)
      rw [g2 q hqx]
      exact hmid.rem q (List.mem_cons_of_mem _ hq)
    · intro x2 hx2
      by_cases hxx : x2 = x
      · subst hxx
        intro t u het heu
        rcases (g1 x2 t).mp het with hold | ⟨_, hextt⟩
        · have hAxt : edgeOf A x2 t := by
            unfold edgeOf at hold ⊢
            rw [← hremx]
            exact hold
          exact Or.inl (hfin_of_inv4 t u hAxt heu)
        · obtain ⟨y, hy1, hy2, hy3⟩ := hextt
          have hy4 : edgeOf td0.affects y t := by
            cases hg : dget td0.affects y with
            | none =>
              rw [hg] at hy3
              simp [dkeys] at hy3
            | some d =>
              rw [hg] at hy3
              simp only [Option.getD_some] at hy3
              exact vtrue_dkeys_edge (hmid.vt y d hg) hg t hy3
          by_cases hyR : y ∈ x2 :: R
          · have hyA : edgeOf A y t := by
              unfold edgeOf at hy4 ⊢
              rw [← hmid.rem y hyR]
              exact hy4
            rcases List.mem_cons.mp hyR with hyx | hyx
            · subst hyx
              exact Or.inl (hfin_of_inv4 t u hyA heu)
            · by_cases hyu : edgeOf A y u
              · exact Or.inl ((g1 x2 u).mpr
                  (Or.inr ⟨rfl, hext_of y u (hysedge y hy1) hy2 (hmid.mono y u hyu)⟩))
              · obtain ⟨m2, hm1, hm2, hm3⟩ := hinv4 y t u hyA heu hyu
                refine Or.inr (Or.inr ⟨y, ?_, hyx, hyu, m2, hm1, hm2, hm3⟩)
                exact (g1 x2 y).mpr (Or.inl (hmid.mono x2 y (hysedge y hy1)))
          · rcases hmid.qdone y hyR t u hy4 heu with hD | ⟨w, hw1, hw2, hw3⟩ |
                ⟨w, hw1, hw2, hw3, m3, hm1, hm2, hm3⟩
            · exact Or.inl ((g1 x2 u).mpr
                (Or.inr ⟨rfl, ⟨y, hy1, hy2, edge_mem_dkeys hD⟩⟩))
            · refine Or.inr (Or.inl ⟨w, ?_, (g4 w).mpr (Or.inl hw2), ?_⟩)
              · exact (g1 x2 w).mpr (Or.inr ⟨rfl, ⟨y, hy1, hy2, edge_mem_dkeys hw1⟩⟩)
              · exact (g1 w u).mpr (Or.inl hw3)
            · rcases List.mem_cons.mp hw2 with hwx | hwx
              · subst hwx
                exact Or.inl ((g1 w u).mpr
                  (Or.inr ⟨rfl, hext_of m3 u hm1 hm2 (hmid.mono m3 u hm3)⟩))
              · refine Or.inr (Or.inr ⟨w, ?_, hwx, hw3, m3, hm1, hm2, hm3⟩)
                exact (g1 x2 w).mpr (Or.inr ⟨rfl, ⟨y, hy1, hy2, edge_mem_dkeys hw1⟩⟩)
      · have hold := hmid.qdone x2 (by
          intro hc
          rcases List.mem_cons.mp hc with h | h
          · exact hxx h
          · exact hx2 h)
        intro t u het heu
        have het0 : edgeOf td0.affects x2 t := by
          rcases (g1 x2 t).mp het with h | ⟨h, _⟩
          · exact h
          · exact absurd h hxx
        rcases hold t u het0 heu with hD | ⟨w, hw1, hw2, hw3⟩ |
            ⟨w, hw1, hw2, hw3, m3, hm1, hm2, hm3⟩
        · exact Or.inl ((g1 x2 u).mpr (Or.inl hD))
        · exact Or.inr (Or.inl ⟨w, (g1 x2 w).mpr (Or.inl hw1),
            (g4 w).mpr (Or.inl hw2), (g1 w u).mpr (Or.inl hw3)⟩)
        · rcases List.mem_cons.mp hw2 with hwx | hwx
          · subst hwx
            have hfinwu : edgeOf F.1.affects w u :=
              (g1 w u).mpr (Or.inr ⟨rfl, hext_of m3 u hm1 hm2 (hmid.mono m3 u hm3)⟩)
            have hwt0 : ¬edgeOf td0.affects w u := by
              intro hc
              unfold edgeOf at hc
              rw [hremx] at hc
              exact hw3 hc
            have hNw : dhas F.2.1 w = true :=
              (g4 w).mpr (Or.inr ⟨rfl,
                u, hext_of m3 u hm1 hm2 (hmid.mono m3 u hm3), hwt0⟩)
            exact Or.inr (Or.inl ⟨w, (g1 x2 w).mpr (Or.inl hw1), hNw, hfinwu⟩)
          · exact Or.inr (Or.inr ⟨w, (g1 x2 w).mpr (Or.inl hw1), hwx, hw3,
              m3, hm1, hm2, hm3⟩)
    · intro q hq z
      have hn0 : dhas N0 q = false := by
        cases hc : dhas N0 q
        · rfl
        · have h2 := (g4 q).mpr (Or.inl hc)
          rw [hq] at h2
          simp at h2
      by_cases hqx : q = x
      · subst hqx
        have hnoadd : ∀ z2, extAdd T td0.affects ys z2 → edgeOf td0.affects q z2 := by
          intro z2 hz2
          by_cases hc : edgeOf td0.affects q z2
          · exact hc
          · have h2 := (g4 q).mpr (Or.inr ⟨rfl, z2, hz2, hc⟩)
            rw [hq] at h2
            simp at h2
        constructor
        · intro hz
          rcases (g1 q z).mp hz with h | ⟨_, h⟩
          · exact (hmid.nstab q hn0 z).mp h
          · exact (hmid.nstab q hn0 z).mp (hnoadd z h)
        · intro hz
          exact (g1 q z).mpr (Or.inl ((hmid.nstab q hn0 z).mpr hz))
      · constructor
        · intro hz
          rcases (g1 q z).mp hz with h | ⟨h, _⟩
          · exact (hmid.nstab q hn0 z).mp h
          · exact absurd h hqx
        · intro hz
          exact (g1 q z).mpr (Or.inl ((hmid.nstab q hn0 z).mpr hz))
    · intro hinc
      have hi0 : inc0 = false := by
        cases hc : inc0
        · rfl
        · have h2 := g5.mpr (Or.inl hc)
          rw [hinc] at h2
          simp at h2
      have hnoadd : ∀ z2, extAdd T td0.affects ys z2 → edgeOf td0.affects x z2 := by
        intro z2 hz2
        by_cases hc : edgeOf td0.affects x z2
        · exact hc
        · have h2 := g5.mpr (Or.inr ⟨z2, hz2, hc⟩)
          rw [hinc] at h2
          simp at h2
      obtain ⟨hold1, hold2⟩ := hmid.incf hi0
      constructor
      · intro q z
        constructor
        · intro hz
          rcases (g1 q z).mp hz with h | ⟨hqx, h⟩
          · exact (hold1 q z).mp h
          · subst hqx
            exact (hold1 q z).mp (hnoadd z h)
        · intro hz
          exact (g1 q z).mpr (Or.inl ((hold1 q z).mpr hz))
      · intro q
        cases hc : dhas F.2.1 q with
        | false => rfl
        | true =>
          rcases (g4 q).mp hc with h | ⟨hqx, z, hz1, hz2⟩
          · rw [hold2 q] at h
            simp at h
          · exact absurd (hnoadd z hz1) hz2
    · intro q z hz hnA
      by_cases hqx : q = x
      · subst hqx
        rcases (g1 q z).mp hz with h | ⟨_, h⟩
        · exact (g4 q).mpr (Or.inl (hmid.ngrow q z h hnA))
        · have hnt0 : ¬edgeOf td0.affects q z := by
            intro hc
            unfold edgeOf at hc hnA
            rw [hremx] at hc
            exact hnA hc
          exact (g4 q).mpr (Or.inr ⟨rfl, z, h, hnt0⟩)
      · rcases (g1 q z).mp hz with h | ⟨h, _⟩
        · exact (g4 q).mpr (Or.inl (hmid.ngrow q z h hnA))
        · exact absurd h hqx
    · intro hinc
      rcases g5.mp hinc with h | ⟨z, hz1, hz2⟩
      · have h1 : ecnt (dkeys A) U A + 1 ≤ ecnt (dkeys A) U td0.affects := hmid.grow h
        have h2 := ecnt_mono (dkeys A) U td0.affects F.1.affects
          (fun s t ht => (g1 s t).mpr (Or.inl ht))
        omega
      · have hzU : z ∈ U := by
          obtain ⟨y, hy1, hy2, hy3⟩ := hz1
          cases hg : dget td0.affects y with
          | none =>
            rw [hg] at hy3
            simp [dkeys] at hy3
          | some d =>
            rw [hg] at hy3
            simp only [Option.getD_some] at hy3
            exact hmid.univ y d hg z hy3
        have hxS : x ∈ dkeys A := dhas_mem_dkeys hx
        have h1 := ecnt_mono (dkeys A) U A td0.affects hmid.mono
        have h2 := ecnt_strict (dkeys A) U td0.affects F.1.affects x z
          (fun s t ht => (g1 s t).mpr (Or.inl ht)) hzU hz2
          ((g1 x z).mpr (Or.inr ⟨rfl, hz1⟩)) hxS
        omega
    · intro q z hz
      refine g10 (Relation.TransGen (edgeOf A)) hmid.sound ?_ q z hz
      intro z2 hz2
      obtain ⟨y, hy1, hy2, hy3⟩ := hz2
      have hyz2 : edgeOf td0.affects y z2 := by
        cases hg : dget td0.affects y with
        | none =>
          rw [hg] at hy3
          simp [dkeys] at hy3
        | some d =>
          rw [hg] at hy3
          simp only [Option.getD_some] at hy3
          exact vtrue_dkeys_edge (hmid.vt y d hg) hg z2 hy3
      exact Relation.TransGen.head (hysedge y hy1) (hmid.sound y z2 hyz2)
    · rw [tgt_dkeys L T x ys td0 N0 inc0 hdx]
      exact hmid.keys

theorem tdRound_fold (L : Dict Bool) (U : List String) (A : Dict (Dict Bool))
    (T : Dict Unit)
    (hinv4 : inv4 A T)
    (hAvt : ∀ q d, dget A q = some d → ∀ p ∈ d, p.2 = true) :
    ∀ (S : List String) (σ : TDState × Dict Unit × Bool), S.Nodup →
    TDMid L U A T S σ → TDMid L U A T [] (S.foldl (tdSource L T) σ) := by
  intro S
  induction S with
  | nil =>
    intro σ _ h
    exact h
  | cons x S ih =>
    intro σ hnd hmid
    rw [List.foldl_cons]
    rcases σ with ⟨td0, N0, inc0⟩
    exact ih _ (List.nodup_cons.mp hnd).2
      (tdSource_step L U A T x S td0 N0 inc0 hinv4 hAvt (List.nodup_cons.mp hnd).1 hmid)

theorem TDMid_start (L : Dict Bool) (U : List String) (A : Dict (Dict Bool))
    (T : Dict Unit) (D : Dict Bool)
    (hvt : ∀ q d, dget A q = some d → ∀ p ∈ d, p.2 = true)
    (huniv : ∀ q d, dget A q = some d → ∀ z ∈ dkeys d, z ∈ U)
    (hfl : ∀ s t, edgeOf A s t → dtruthy L s = false → dtruthy D t = true) :
    TDMid L U A T (dkeys A) (⟨A, D⟩, [], false) := by
  refine ⟨?_, ?_, ?_, ?_, ?_, ?_, hvt, huniv, hfl, ?_, ?_, ?_, rfl⟩
  · intro s t h
    exact h
  · intro q
    rfl
  · intro x _
    rfl
  · intro x hx
    intro t u het _
    have : dget A x = some ((dget A x).getD []) := by
      cases hg : dget A x with
      | none =>
        unfold edgeOf dtruthy at het
        rw [hg] at het
        simp [dget] at het
      | some d => rfl
    exact absurd (dget_some_mem_dkeys this) hx
  · intro q _ z
    rfl
  · intro _
    refine ⟨fun q z => Iff.rfl, fun q => rfl⟩
  · intro q z h1 h2
    exact absurd h1 h2
  · intro h
    simp at h
  · intro q z h
    exact Relation.TransGen.single h

theorem inv4_next {L : Dict Bool} {U : List String} {A : Dict (Dict Bool)}
    {T : Dict Unit} {σ : TDState × Dict Unit × Bool}
    (hmid : TDMid L U A T [] σ) : inv4 σ.1.affects σ.2.1 := by
  intro s t u hst htu hsu
  by_cases hNt : dhas σ.2.1 t = true
  · exact ⟨t, hst, hNt, htu⟩
  · have hNt2 : dhas σ.2.1 t = false := by
      cases hc : dhas σ.2.1 t
      · rfl
      · exact absurd hc hNt
    have hAtu : edgeOf A t u := (hmid.nstab t hNt2 u).mp htu
    rcases hmid.qdone s (List.not_mem_nil s) t u hst hAtu with h | ⟨w, h1, h2, h3⟩ |
        ⟨w, _, hw, _⟩
    · exact absurd h hsu
    · exact ⟨w, h1, h2, h3⟩
    · exact absurd hw (List.not_mem_nil w)

theorem tdLoop_succ (L : Dict Bool) (fuel : Nat) (T : Dict Unit) (td : TDState) :
    tdLoop L (fuel + 1) T td =
      (if (tdRound L T td).2.2 = true then
        tdLoop L fuel (tdRound L T td).2.1 (tdRound L T td).1
      else ((tdRound L T td).1, true)) := rfl

theorem tdLoop_props (L : Dict Bool) (U : List String) (G0 : Dict (Dict Bool))
    (hnd : (dkeys G0).Nodup) :
    ∀ (fuel : Nat) (T : Dict Unit) (td : TDState),
    TDLoopInv L U G0 T td →
    (dkeys G0).length * U.length < fuel + ecnt (dkeys G0) U td.affects →
    ((tdLoop L fuel T td).2 = true
     ∧ (∀ s t u, edgeOf (tdLoop L fuel T td).1.affects s t →
         edgeOf (tdLoop L fuel T td).1.affects t u →
         edgeOf (tdLoop L fuel T td).1.affects s u)
     ∧ (∀ s t, edgeOf G0 s t → edgeOf (tdLoop L fuel T td).1.affects s t)
     ∧ (∀ s t, edgeOf (tdLoop L fuel T td).1.affects s t →
         Relation.TransGen (edgeOf G0) s t)
     ∧ (∀ s t, edgeOf (tdLoop L fuel T td).1.affects s t → dtruthy L s = false →
         dtruthy (tdLoop L fuel T td).1.dependsOnAGlobal t = true)) := by
  intro fuel
  induction fuel with
  | zero =>
    intro T td hinv hfuel
    have hb := ecnt_bound (dkeys G0) U td.affects
    omega
  | succ fuel ih =>
    intro T td hinv hfuel
    have hmid0 := TDMid_start L U td.affects T td.dependsOnAGlobal hinv.vt hinv.univ
      hinv.flags
    have hndA : (dkeys td.affects).Nodup := by
      rw [hinv.keys]
      exact hnd
    have hmid : TDMid L U td.affects T [] (tdRound L T td) :=
      tdRound_fold L U td.affects T hinv.i4 hinv.vt (dkeys td.affects)
        (⟨td.affects, td.dependsOnAGlobal⟩, [], false) hndA hmid0
    have hsound2 : ∀ s t, edgeOf (tdRound L T td).1.affects s t →
        Relation.TransGen (edgeOf G0) s t := by
      intro s t h
      have h2 := hmid.sound s t h
      have h3 : Relation.TransGen (Relation.TransGen (edgeOf G0)) s t :=
        Relation.TransGen.mono (fun a b hab => hinv.sound a b hab) h2
      rw [Relation.transGen_idem] at h3
      exact h3
    rw [tdLoop_succ]
    cases hinc : (tdRound L T td).2.2 with
    | false =>
      simp only [Bool.false_eq_true, if_false]
      obtain ⟨hstab, hNempty⟩ := hmid.incf hinc
      refine ⟨by trivial, ?_, ?_, ?_, ?_⟩
      · intro s t u hst htu
        by_cases hsu : edgeOf (tdRound L T td).1.affects s u
        · exact hsu
        · obtain ⟨m, _, hm2, _⟩ := inv4_next hmid s t u hst htu hsu
          rw [hNempty m] at hm2
          simp at hm2
      · intro s t h
        exact hmid.mono s t (hinv.base s t h)
      · exact hsound2
      · exact hmid.flags
    | true =>
      simp only [if_true]
      have hinv2 : TDLoopInv L U G0 (tdRound L T td).2.1 (tdRound L T td).1 := by
        refine ⟨inv4_next hmid, ?_, hmid.vt, hmid.univ, hmid.flags, hsound2, ?_⟩
        · intro s t h
          exact hmid.mono s t (hinv.base s t h)
        · rw [hmid.keys, hinv.keys]
      have hgrow := hmid.grow hinc
      have hkeq : dkeys td.affects = dkeys G0 := hinv.keys
      rw [hkeq] at hgrow
      exact ih (tdRound L T td).2.1 (tdRound L T td).1 hinv2 (by omega)

theorem edge_src_mem {g : Dict (Dict Bool)} {s t : String} (h : edgeOf g s t) :
    s ∈ dkeys g := by
  unfold edgeOf at h
  cases hg : dget g s with
  | none =>
    rw [hg] at h
    simp [dtruthy, dget] at h
  | some d => exact dget_some_mem_dkeys hg

theorem tdInitTodo_dhas (g : Dict (Dict Bool)) (q : String) (h : q ∈ dkeys g) :
    dhas (tdInitTodo g) q = true := by
  unfold tdInitTodo
  have main : ∀ (ks : List String) (d : Dict Unit), (q ∈ ks ∨ dhas d q = true) →
      dhas (ks.foldl (fun d k => dset d k ()) d) q = true := by
    intro ks
    induction ks with
    | nil =>
      intro d hd
      rcases hd with h1 | h1
      · exact absurd h1 (List.not_mem_nil q)
      · exact h1
    | cons k ks ih =>
      intro d hd
      rw [List.foldl_cons]
      refine ih (dset d k ()) ?_
      rcases hd with h1 | h1
      · rcases List.mem_cons.mp h1 with h2 | h2
        · exact Or.inr ((dhas_dset_iff d k () q).mpr (Or.inr h2))
        · exact Or.inl h2
      · exact Or.inr ((dhas_dset_iff d k () q).mpr (Or.inl h1))
  exact main (dkeys g) [] (Or.inl h)

theorem tdUniverse_mem {g : Dict (Dict Bool)} {q : String} {d : Dict Bool}
    (h : dget g q = some d) : ∀ z ∈ dkeys d, z ∈ tdUniverse g := by
  intro z hz
  unfold tdUniverse
  rw [List.mem_dedup, List.mem_append]
  right
  rw [List.mem_flatten]
  exact ⟨dkeys d, List.mem_map_of_mem (fun p => dkeys p.2) (dget_mem h), hz⟩

theorem ctd_eq (st : Stats) :
    calculateTransitiveDependencies st =
      ({ st with
          affects := (tdLoop st.isLocal (tdFuel st.affects) (tdInitTodo st.affects)
            ⟨st.affects, st.dependsOnAGlobal⟩).1.affects,
          dependsOnAGlobal := (tdLoop st.isLocal (tdFuel st.affects)
            (tdInitTodo st.affects) ⟨st.affects, st.dependsOnAGlobal⟩).1.dependsOnAGlobal },
        (tdLoop st.isLocal (tdFuel st.affects) (tdInitTodo st.affects)
          ⟨st.affects, st.dependsOnAGlobal⟩).2) := rfl

/-- C5: on every finite direct dependency graph (total, boolean-true valued,
with distinct sources), the transitive-closure pass reaches its fixed point
(the fuelled loop reports completion), the resulting `affects` relation is
exactly the transitive closure of the input `affects` relation, and every
closure target of an edge with a non-local source is marked in
`dependsOnAGlobal`, provided the direct edges already satisfy that marking. -/
theorem claim_C5 (st : Stats)
    (hvt : ∀ p ∈ st.affects, ∀ q ∈ p.2, q.2 = true)
    (hnd : (dkeys st.affects).Nodup)
    (hfl : ∀ p ∈ st.affects, ∀ q ∈ p.2,
      dtruthy st.isLocal p.1 = false → dtruthy st.dependsOnAGlobal q.1 = true) :
    (calculateTransitiveDependencies st).2 = true
    ∧ (∀ s t, edgeOf (calculateTransitiveDependencies st).1.affects s t ↔
        Relation.TransGen (edgeOf st.affects) s t)
    ∧ (∀ s t, edgeOf (calculateTransitiveDependencies st).1.affects s t →
        dtruthy st.isLocal s = false →
        dtruthy (calculateTransitiveDependencies st).1.dependsOnAGlobal t = true) := by
  have hflags0 : ∀ s t, edgeOf st.affects s t → dtruthy st.isLocal s = false →
      dtruthy st.dependsOnAGlobal t = true := by
    intro s t h hl
    unfold edgeOf at h
    cases hg : dget st.affects s with
    | none =>
      rw [hg] at h
      simp [dtruthy, dget] at h
    | some d =>
      rw [hg] at h
      simp only [Option.getD_some] at h
      have ht : dget d t = some true := dtruthy_iff.mp h
      exact hfl (s, d) (dget_mem hg) (t, true) (dget_mem ht) hl
  have hinv : TDLoopInv st.isLocal (tdUniverse st.affects) st.affects
      (tdInitTodo st.affects) ⟨st.affects, st.dependsOnAGlobal⟩ := by
    refine ⟨?_, fun s t h => h, ?_, ?_, hflags0, ?_, rfl⟩
    · intro s t u hst htu _
      exact ⟨t, hst, tdInitTodo_dhas st.affects t (edge_src_mem htu), htu⟩
    · intro q d hq p hp
      exact hvt (q, d) (dget_mem hq) p hp
    · intro q d hq
      exact tdUniverse_mem hq
    · intro s t h
      exact Relation.TransGen.single h
  have hfuel : (dkeys st.affects).length * (tdUniverse st.affects).length <
      tdFuel st.affects + ecnt (dkeys st.affects) (tdUniverse st.affects) st.affects := by
    have h1 : tdFuel st.affects =
        (dkeys st.affects).length * (tdUniverse st.affects).length + 1 := rfl
    omega
  obtain ⟨hok, hclosed, hbase, hsound, hflagsF⟩ :=
    tdLoop_props st.isLocal (tdUniverse st.affects) st.affects hnd
      (tdFuel st.affects) (tdInitTodo st.affects) ⟨st.affects, st.dependsOnAGlobal⟩
      hinv hfuel
  rw [ctd_eq]
  refine ⟨hok, ?_, hflagsF⟩
  intro s t
  constructor
  · exact hsound s t
  · intro htg
    induction htg with
    | single h => exact hbase _ _ h
    | tail _ h2 ih => exact hclosed _ _ _ ih (hbase _ _ h2)

theorem claim_C5_witness :
    (calculateTransitiveDependencies c5State).2 = true :=
  (claim_C5 c5State (by decide) (by decide) (by decide)).1

end Eliminator
